import Mathlib

/- Verification development for the certificate e-mail subsystem
   (supabase/functions/send-certificate-email/index.ts).

   Strings are embedded as `List Char`.  The definitions below are direct
   translations of the TypeScript source; definitions whose doc comment says
   so model the external/spec side (the standards-compliant MIME reader and
   the standard base64 codec used by the data-URL producer).  Functions that
   the source writes with non-structural recursion are given an explicit
   structural fuel argument (always instantiated with a sufficient bound) so
   that they stay kernel-reducible. -/

set_option maxRecDepth 4000

namespace CertMail

/- ------------------------------------------------------------------ -/
/- Generic character-list utilities (JavaScript string primitives).   -/
/- ------------------------------------------------------------------ -/

/-- Whitespace class used by JavaScript `trim` and `\s` (the characters
    relevant to this code base). -/
def isJsWs (c : Char) : Bool :=
  c = ' ' || c = '\t' || c = '\n' || c = '\r' || c = '\x0b' || c = '\x0c'

/-- JavaScript `String.prototype.trim`: drop whitespace at both ends. -/
def trimJs (s : List Char) : List Char :=
  ((s.dropWhile isJsWs).reverse.dropWhile isJsWs).reverse

/-- `startsWithL pat s` is true when `pat` is an initial segment of `s`
    (JavaScript `s.startsWith(pat)`). -/
def startsWithL : List Char → List Char → Bool
  | [], _ => true
  | _ :: _, [] => false
  | c :: cs, d :: ds => c = d && startsWithL cs ds

/-- Does the character sequence contain a CR LF pair? -/
def hasCRLF : List Char → Bool
  | [] => false
  | [_] => false
  | a :: b :: rest => (a = '\r' && b = '\n') || hasCRLF (b :: rest)

/-- Split a character sequence at every CR LF pair
    (JavaScript `s.split('\r\n')`); always returns at least one line. -/
def splitCRLF : List Char → List (List Char)
  | [] => [[]]
  | '\r' :: '\n' :: rest => [] :: splitCRLF rest
  | c :: rest => (c :: (splitCRLF rest).headD []) :: (splitCRLF rest).tail

/-- Join lines with CR LF (JavaScript `lines.join('\r\n')`). -/
def joinCRLF : List (List Char) → List Char
  | [] => []
  | [l] => l
  | l :: ls => l ++ '\r' :: '\n' :: joinCRLF ls

theorem splitCRLF_ne_nil (s : List Char) : splitCRLF s ≠ [] := by
  induction s using splitCRLF.induct <;> simp [splitCRLF]

theorem splitCRLF_cons (c : Char) (rest : List Char)
    (h : ∀ r2, c = '\r' → rest = '\n' :: r2 → False) :
    splitCRLF (c :: rest) = (c :: (splitCRLF rest).headD []) :: (splitCRLF rest).tail := by
  rw [splitCRLF.eq_def]
  split
  · rename_i heq; simp at heq
  · rename_i r2 heq
    injection heq with h1 h2
    exact (h r2 h1 h2).elim
  · rename_i heq
    injection heq with h1 h2
    subst h1; subst h2
    rfl

theorem joinCRLF_cons_cons (l m : List Char) (ms : List (List Char)) :
    joinCRLF (l :: m :: ms) = l ++ '\r' :: '\n' :: joinCRLF (m :: ms) := rfl

theorem splitCRLF_head_is_initial (s : List Char) :
    ((splitCRLF s).headD []) <+: s := by
  induction s using splitCRLF.induct with
  | case1 => simp [splitCRLF]
  | case2 rest ih => simp [splitCRLF]
  | case3 c rest h ih =>
    rw [splitCRLF_cons c rest h]
    simpa using ih

theorem hasCRLF_tail (c : Char) (l : List Char) (h : hasCRLF (c :: l) = false) :
    hasCRLF l = false := by
  cases l with
  | nil => rfl
  | cons b bs =>
    simp only [hasCRLF, Bool.or_eq_false_iff] at h
    exact h.2

theorem splitCRLF_single (l : List Char) (h : hasCRLF l = false) :
    splitCRLF l = [l] := by
  induction l using splitCRLF.induct with
  | case1 => rfl
  | case2 rest ih => simp [hasCRLF] at h
  | case3 c rest hside ih =>
    rw [splitCRLF_cons c rest hside, ih (hasCRLF_tail c rest h)]
    rfl

theorem splitCRLF_append (l rest : List Char) (h : hasCRLF l = false) :
    splitCRLF (l ++ '\r' :: '\n' :: rest) = l :: splitCRLF rest := by
  induction l with
  | nil => rfl
  | cons c l' ih =>
    have h' : hasCRLF l' = false := hasCRLF_tail c l' h
    have hside : ∀ r2, c = '\r' → (l' ++ '\r' :: '\n' :: rest) = '\n' :: r2 → False := by
      intro r2 hc happ
      cases l' with
      | nil => simp at happ
      | cons e l'' =>
        have he : e = '\n' := by simpa using congrArg List.head? happ
        subst hc; subst he
        simp [hasCRLF] at h
    rw [List.cons_append, splitCRLF_cons c _ hside, ih h']
    rfl

theorem splitCRLF_joinCRLF (ls : List (List Char)) (hne : ls ≠ [])
    (h : ∀ l ∈ ls, hasCRLF l = false) :
    splitCRLF (joinCRLF ls) = ls := by
  induction ls with
  | nil => exact absurd rfl hne
  | cons l ls' ih =>
    cases ls' with
    | nil => exact splitCRLF_single l (h l (by simp))
    | cons m ms =>
      rw [joinCRLF_cons_cons, splitCRLF_append l _ (h l (by simp))]
      rw [ih (by simp) (fun x hx => h x (List.mem_cons_of_mem _ hx))]

theorem joinCRLF_splitCRLF (s : List Char) : joinCRLF (splitCRLF s) = s := by
  induction s using splitCRLF.induct with
  | case1 => rfl
  | case2 rest ih =>
    show joinCRLF ([] :: splitCRLF rest) = _
    cases hsp : splitCRLF rest with
    | nil => exact absurd hsp (splitCRLF_ne_nil rest)
    | cons m ms =>
      rw [joinCRLF_cons_cons]
      rw [hsp] at ih
      simp [ih]
  | case3 c rest hside ih =>
    rw [splitCRLF_cons c rest hside]
    cases hsp : splitCRLF rest with
    | nil => exact absurd hsp (splitCRLF_ne_nil rest)
    | cons m ms =>
      rw [hsp] at ih
      cases ms with
      | nil =>
        simp [joinCRLF] at ih ⊢
        simp [ih]
      | cons m2 ms2 =>
        rw [joinCRLF_cons_cons] at ih
        simp only [List.headD, List.tail]
        rw [joinCRLF_cons_cons]
        simp [← ih]

theorem splitCRLF_no_crlf (s : List Char) : ∀ l ∈ splitCRLF s, hasCRLF l = false := by
  induction s using splitCRLF.induct with
  | case1 => simp [splitCRLF, hasCRLF]
  | case2 rest ih =>
    intro l hl
    simp only [splitCRLF, List.mem_cons] at hl
    rcases hl with h | h
    · simp [h, hasCRLF]
    · exact ih l h
  | case3 c rest h ih =>
    intro l hl
    rw [splitCRLF_cons c rest h] at hl
    rcases List.mem_cons.mp hl with h1 | h1
    · subst h1
      have hmem : (splitCRLF rest).headD [] ∈ splitCRLF rest := by
        cases hsp : splitCRLF rest with
        | nil => exact absurd hsp (splitCRLF_ne_nil rest)
        | cons m ms => simp
      have htl : hasCRLF ((splitCRLF rest).headD []) = false := ih _ hmem
      cases hhd : (splitCRLF rest).headD [] with
      | nil => simp [hasCRLF]
      | cons e es =>
        have hpre := splitCRLF_head_is_initial rest
        rw [hhd] at hpre htl
        have he : rest = e :: (es ++ (rest.drop (es.length + 1))) := by
          obtain ⟨t, ht⟩ := hpre
          rw [← ht]; simp
        show hasCRLF (c :: e :: es) = false
        simp only [hasCRLF, Bool.or_eq_false_iff, Bool.and_eq_false_iff]
        constructor
        · rcases Decidable.em (c = '\r') with h1 | h1
          · right
            have hne : e ≠ '\n' := by
              intro hbn
              exact h _ h1 (by rw [he, hbn])
            simp [hne]
          · left; simp [h1]
        · exact htl
    · exact ih l (List.mem_of_mem_tail h1)

theorem hasCRLF_of_no_cr (l : List Char) (h : '\r' ∉ l) : hasCRLF l = false := by
  induction l with
  | nil => rfl
  | cons a rest ih =>
    cases rest with
    | nil => rfl
    | cons b bs =>
      have ha : a ≠ '\r' := fun hc => h (hc ▸ List.mem_cons_self a _)
      simp only [hasCRLF, Bool.or_eq_false_iff, Bool.and_eq_false_iff]
      exact ⟨Or.inl (by simp [ha]), ih (fun hc => h (List.mem_cons_of_mem _ hc))⟩

/- ------------------------------------------------------------------ -/
/- Base64 text handling in buildMimeMessage (source lines 166-180).   -/
/- ------------------------------------------------------------------ -/

/-- The base64 alphabet test of the source regex `[A-Za-z0-9+/]`. -/
def isB64Char (c : Char) : Bool :=
  ('A' ≤ c && c ≤ 'Z') || ('a' ≤ c && c ≤ 'z') || ('0' ≤ c && c ≤ '9') ||
    c = '+' || c = '/'

/-- The source regex `/^[A-Za-z0-9+/]+=*$/`: a nonempty run of alphabet
    characters followed only by `=` padding. -/
def b64FormatOk (s : List Char) : Bool :=
  let core := s.takeWhile isB64Char
  !core.isEmpty && (s.drop core.length).all (· = '=')

/-- `buildMimeMessage`'s minimal cleaning: `trim()` then removal of
    `\r`, `\n` and `\t` (regex `/[\r\n\t]/g`). -/
def cleanB64 (s : List Char) : List Char :=
  (trimJs s).filter fun c => !(c = '\r' || c = '\n' || c = '\t')

/-- Fuel-driven worker for the 76-character line chopper; the fuel is
    always at least the length of the list. -/
def chunksGo : Nat → List Char → List (List Char)
  | _, [] => []
  | 0, s => [s]
  | f + 1, s => s.take 76 :: chunksGo f (s.drop 76)

/-- The source line wrap `cleanBase64.match(/.{1,76}/g) || []`: chop the
    text into successive runs of at most 76 characters. -/
def chunks76 (s : List Char) : List (List Char) :=
  chunksGo s.length s

theorem chunksGo_flat (f : Nat) (s : List Char) (h : s.length ≤ f) :
    (chunksGo f s).flatten = s := by
  induction f generalizing s with
  | zero =>
    have : s = [] := List.eq_nil_of_length_eq_zero (Nat.le_zero.mp h)
    subst this; rfl
  | succ f ih =>
    cases s with
    | nil => rfl
    | cons c rest =>
      show (List.take 76 (c :: rest) :: chunksGo f (List.drop 76 (c :: rest))).flatten = _
      rw [List.flatten_cons, ih _ (by simp only [List.length_drop, List.length_cons] at h ⊢; omega)]
      exact List.take_append_drop 76 (c :: rest)

theorem chunksGo_le76 (f : Nat) (s : List Char) (h : s.length ≤ f) :
    ∀ l ∈ chunksGo f s, l.length ≤ 76 := by
  induction f generalizing s with
  | zero =>
    have : s = [] := List.eq_nil_of_length_eq_zero (Nat.le_zero.mp h)
    subst this; simp [chunksGo]
  | succ f ih =>
    cases s with
    | nil => simp [chunksGo]
    | cons c rest =>
      intro l hl
      show l.length ≤ 76
      have : l = List.take 76 (c :: rest) ∨ l ∈ chunksGo f (List.drop 76 (c :: rest)) := by
        simpa [chunksGo] using hl
      rcases this with h1 | h1
      · subst h1; simp
      · exact ih _ (by simp only [List.length_drop, List.length_cons] at h ⊢; omega) l h1

theorem chunksGo_ne_nil (f : Nat) (s : List Char) : ∀ l ∈ chunksGo f s, l ≠ [] := by
  induction f generalizing s with
  | zero =>
    cases s with
    | nil => simp [chunksGo]
    | cons c rest => simp [chunksGo]
  | succ f ih =>
    cases s with
    | nil => simp [chunksGo]
    | cons c rest =>
      intro l hl
      have : l = List.take 76 (c :: rest) ∨ l ∈ chunksGo f (List.drop 76 (c :: rest)) := by
        simpa [chunksGo] using hl
      rcases this with h1 | h1
      · subst h1; simp
      · exact ih _ l h1

theorem chunks76_flat (s : List Char) : (chunks76 s).flatten = s :=
  chunksGo_flat s.length s le_rfl

theorem chunks76_mem_chars (s : List Char) (l : List Char) (hl : l ∈ chunks76 s) :
    ∀ c ∈ l, c ∈ s := by
  intro c hc
  have : c ∈ (chunks76 s).flatten := List.mem_flatten.mpr ⟨l, hl, hc⟩
  rwa [chunks76_flat] at this

theorem chunks76_nonempty (s : List Char) (h : s ≠ []) : chunks76 s ≠ [] := by
  unfold chunks76
  cases s with
  | nil => exact absurd rfl h
  | cons c rest => simp [chunksGo]

theorem cleanB64_no_cr (s : List Char) : '\r' ∉ cleanB64 s := by
  intro h
  have := (List.mem_filter.mp h).2
  simp at this

/-- Claim C5: the base64 body placed in the MIME message is the CRLF join
    of `chunks76` of the cleaned base64 text; parsed back into lines, every
    line is at most 76 characters and the concatenation of the lines
    restores the cleaned text exactly, for inputs of every size. -/
theorem claim5_line_wrap (s : List Char) :
    ((splitCRLF (joinCRLF (chunks76 (cleanB64 s)))).all
        fun l => l.length ≤ 76) = true ∧
    (splitCRLF (joinCRLF (chunks76 (cleanB64 s)))).flatten = cleanB64 s := by
  by_cases hnil : cleanB64 s = []
  · rw [hnil]
    constructor
    · rfl
    · rfl
  · have hsplit : splitCRLF (joinCRLF (chunks76 (cleanB64 s))) = chunks76 (cleanB64 s) := by
      apply splitCRLF_joinCRLF _ (chunks76_nonempty _ hnil)
      intro l hl
      apply hasCRLF_of_no_cr
      intro hcr
      exact cleanB64_no_cr s (chunks76_mem_chars _ l hl '\r' hcr)
    rw [hsplit]
    constructor
    · rw [List.all_eq_true]
      intro l hl
      simpa using chunksGo_le76 _ _ le_rfl l hl
    · exact chunks76_flat _

/- ------------------------------------------------------------------ -/
/- Filename derivation in sendEmailInBackground (source lines 356-361). -/
/- ------------------------------------------------------------------ -/

/-- Fuel-driven worker for collapsing whitespace runs (the fuel is always
    at least the length of the list): JavaScript `replace(/\s+/g, '_')`. -/
def collapseGo : Nat → List Char → List Char
  | _, [] => []
  | 0, s => s
  | f + 1, c :: rest =>
    if isJsWs c then '_' :: collapseGo f (rest.dropWhile isJsWs)
    else c :: collapseGo f rest

/-- `participant_name.replace(/[^a-zA-Z0-9\s]/g, '').replace(/\s+/g, '_')`:
    drop everything but alphanumerics and whitespace, then turn each
    whitespace run into one underscore. -/
def sanitizeName (s : List Char) : List Char :=
  let kept := s.filter fun c => c.isAlphanum || isJsWs c
  collapseGo kept.length kept

/-- `` `${safeName}_Certificate_${timestamp}.pdf` `` with the date prefix of
    `new Date().toISOString()` passed in as `ts`. -/
def filenameFor (ts name : List Char) : List Char :=
  sanitizeName name ++ "_Certificate_".toList ++ ts ++ ".pdf".toList

theorem collapseGo_chars (f : Nat) (l : List Char) (hf : l.length ≤ f)
    (h : ∀ c ∈ l, (c.isAlphanum || isJsWs c) = true) :
    ∀ c ∈ collapseGo f l, (c.isAlphanum || c = '_') = true := by
  induction f generalizing l with
  | zero =>
    have : l = [] := List.eq_nil_of_length_eq_zero (Nat.le_zero.mp hf)
    subst this; simp [collapseGo]
  | succ f ih =>
    cases l with
    | nil => simp [collapseGo]
    | cons a rest =>
      intro c hc
      by_cases ha : isJsWs a
      · rw [show collapseGo (f + 1) (a :: rest) =
            '_' :: collapseGo f (rest.dropWhile isJsWs) by simp [collapseGo, ha]] at hc
        rcases List.mem_cons.mp hc with h1 | h1
        · simp [h1]
        · refine ih _ ?_ ?_ c h1
          · have h1 : (rest.dropWhile isJsWs).length ≤ rest.length :=
              (rest.dropWhile_sublist isJsWs).length_le
            have h2 : rest.length ≤ f := by simpa using hf
            omega
          · intro d hd
            exact h d (List.mem_cons_of_mem _ ((rest.dropWhile_sublist isJsWs).mem hd))
      · rw [show collapseGo (f + 1) (a :: rest) = a :: collapseGo f rest by
            simp [collapseGo, ha]] at hc
        rcases List.mem_cons.mp hc with h1 | h1
        · subst h1
          have hin := h c (List.mem_cons_self _ _)
          rcases Bool.or_eq_true_iff.mp hin with h2 | h2
          · simp [h2]
          · exact absurd h2 (by simpa using ha)
        · refine ih _ (by simpa using hf)
            (fun d hd => h d (List.mem_cons_of_mem _ hd)) c h1

/-- Claim C9 counterexample: for participant name "Jane Doe" the produced
    filename does not match the pattern `Certificate_Jane_Doe*.pdf` — it
    does not even start with "Certificate". -/
theorem claim9_counterexample :
    startsWithL "Certificate_Jane_Doe".toList
        (filenameFor "2025-08-01".toList "Jane Doe".toList) = false ∧
    filenameFor "2025-08-01".toList "Jane Doe".toList =
      "Jane_Doe_Certificate_2025-08-01.pdf".toList := by
  constructor
  · rfl
  · rfl

/-- Claim C9 (amended): the derived filename is the sanitized participant
    name (alphanumerics kept, whitespace runs collapsed to underscores)
    followed by `_Certificate_<date>.pdf`; the sanitized token always
    consists of alphanumerics and underscores only, and for "Jane Doe" the
    filename is `Jane_Doe_Certificate_<date>.pdf` (pattern
    `Jane_Doe_Certificate*.pdf`, not `Certificate_Jane_Doe*.pdf`); the
    total length is not bounded. -/
theorem claim9_amended :
    (∀ ts : List Char, filenameFor ts "Jane Doe".toList =
        "Jane_Doe_Certificate_".toList ++ ts ++ ".pdf".toList) ∧
    (∀ name : List Char,
        ((sanitizeName name).all fun c => c.isAlphanum || c = '_') = true) := by
  constructor
  · intro ts
    show sanitizeName "Jane Doe".toList ++ _ ++ ts ++ _ = _
    have : sanitizeName "Jane Doe".toList = "Jane_Doe".toList := rfl
    rw [this]
    simp
  · intro name
    rw [List.all_eq_true]
    intro c hc
    apply collapseGo_chars _ _ le_rfl _ c hc
    intro d hd
    exact (List.mem_filter.mp hd).2

theorem startsWithL_append (p s : List Char) : startsWithL p (p ++ s) = true := by
  induction p with
  | nil => rfl
  | cons c cs ih => simp [startsWithL, ih]

theorem takeWhile_all {p : Char → Bool} (l : List Char)
    (h : ∀ c ∈ l, p c = true) : l.takeWhile p = l :=
  List.takeWhile_eq_self_iff.mpr h

theorem b64FormatOk_chars (s : List Char) (h : b64FormatOk s = true) :
    ∀ c ∈ s, isB64Char c = true ∨ c = '=' := by
  intro c hc
  obtain ⟨h1, h2⟩ := Bool.and_eq_true_iff.mp h
  obtain ⟨t, ht⟩ := List.takeWhile_prefix (l := s) (p := isB64Char)
  have hdrop : s.drop (s.takeWhile isB64Char).length = t := by
    nth_rewrite 2 [← ht]
    exact List.drop_left _ t
  rw [hdrop] at h2
  rw [← ht] at hc
  rcases List.mem_append.mp hc with h3 | h3
  · exact Or.inl (by simpa using List.mem_takeWhile_imp h3)
  · exact Or.inr (by simpa using List.all_eq_true.mp h2 c h3)

/- ------------------------------------------------------------------ -/
/- Payload validation in sendEmailInBackground (source lines 321-354). -/
/- ------------------------------------------------------------------ -/

/-- The data-URL marker tested by
    `certificate_url.startsWith('data:application/pdf;base64,')`. -/
def pdfUrlHead : List Char := "data:application/pdf;base64,".toList

/-- The distinct failures the background validation can log. -/
inductive CertError where
  | badUrlFormat
  | dataTooSmall
  | badBase64
  | decodedTooSmall
deriving DecidableEq

/-- `certificate_url.split(',')[1]`: the text between the first and the
    second comma; for a URL that passed the data-URL check this is
    everything after the marker, up to the next comma. -/
def extractPayload (url : List Char) : List Char :=
  (url.drop pdfUrlHead.length).takeWhile (· ≠ ',')

/-- The validation sequence of `sendEmailInBackground` (source lines
    321-354): each failed check returns immediately (in the source: logs and
    `return`s), so only the first failure is ever reported.  The size
    estimate is `(pdfBase64.length * 3) / 4` with no padding adjustment;
    over the naturals the floor division compares against 1000 exactly as
    the source's real-valued division does. -/
def validateCertData (url : List Char) : Except CertError (List Char) :=
  if !(startsWithL pdfUrlHead url) then .error .badUrlFormat
  else
    let p := extractPayload url
    if p.length < 100 then .error .dataTooSmall
    else if !(b64FormatOk p) then .error .badBase64
    else if p.length * 3 / 4 < 1000 then .error .decodedTooSmall
    else .ok p

/-- Modelled from the spec: the non-short-circuiting validator of §4.1,
    which runs every check and accumulates one distinct error per failing
    check ("all problems are reported together"). -/
def specFailures (url : List Char) : List CertError :=
  let p := extractPayload url
  (if startsWithL pdfUrlHead url then [] else [.badUrlFormat]) ++
    (if p.length < 100 then [.dataTooSmall] else []) ++
    (if b64FormatOk p then [] else [.badBase64]) ++
    (if p.length * 3 / 4 < 1000 then [.decodedTooSmall] else [])

/-- The number of trailing `=` padding characters of an encoded payload. -/
def padCountOf (s : List Char) : Nat :=
  (s.reverse.takeWhile (· = '=')).length

/-- Modelled from the spec: the decoded-size estimate of §4.1 step 3,
    `floor(len*3/4) - padCount`. -/
def specSizeEstimate (s : List Char) : Nat :=
  s.length * 3 / 4 - padCountOf s

/-- Claim C3 counterexample: the payload `"ab"` fails both the minimum
    length check and the decoded-size check, yet the code reports only the
    first failure and stops — the checks are short-circuiting, and failing
    checks after the first are never reported. -/
theorem claim3_counterexample :
    validateCertData (pdfUrlHead ++ "ab".toList) = .error .dataTooSmall ∧
    specFailures (pdfUrlHead ++ "ab".toList) =
      [.dataTooSmall, .decodedTooSmall] := by
  constructor
  · rfl
  · rfl

/-- Claim C3 (amended): the validator short-circuits — the checks run in
    order and the first failing check ends validation, reporting that single
    error; still, validation succeeds exactly when no check fails, i.e. the
    result is `ok` iff the accumulated failure list of the spec's
    non-short-circuiting reading is empty, and the single reported error is
    the first of the failing checks. -/
theorem claim3_amended (url : List Char) :
    validateCertData url =
      (match specFailures url with
       | [] => Except.ok (extractPayload url)
       | e :: _ => Except.error e) := by
  unfold validateCertData specFailures
  cases h1 : startsWithL pdfUrlHead url with
  | false => rfl
  | true =>
    simp only [Bool.not_true, Bool.false_eq_true, if_false, List.nil_append]
    by_cases h2 : (extractPayload url).length < 100
    · simp [h2]
    · by_cases h3 : b64FormatOk (extractPayload url)
      · by_cases h4 : (extractPayload url).length * 3 / 4 < 1000
        · simp [h2, h3, h4]
        · simp [h2, h3, h4]
      · simp [h2, h3]

/-- The source regex accepts any nonempty run of `A`s followed by any
    number of `=` pads. -/
theorem b64FormatOk_pad (n k : Nat) (hn : 0 < n) :
    b64FormatOk (List.replicate n 'A' ++ List.replicate k '=') = true := by
  unfold b64FormatOk
  rw [List.takeWhile_append_of_pos
    (fun a ha => by rw [List.eq_of_mem_replicate ha]; decide)]
  rw [List.takeWhile_replicate]
  rw [if_neg (by decide)]
  simp only [List.append_nil, List.length_replicate]
  rw [Bool.and_eq_true]
  constructor
  · cases n with
    | zero => omega
    | succ m => simp [List.replicate_succ]
  · rw [List.drop_left' (by simp)]
    rw [List.all_eq_true]
    intro c hc
    rw [List.eq_of_mem_replicate hc]
    decide

theorem b64FormatOk_replicate (n : Nat) (hn : 0 < n) :
    b64FormatOk (List.replicate n 'A') = true := by
  have h := b64FormatOk_pad n 0 hn
  simpa using h

theorem padCountOf_pad (n k : Nat) :
    padCountOf (List.replicate n 'A' ++ List.replicate k '=') = k := by
  unfold padCountOf
  rw [List.reverse_append, List.reverse_replicate, List.reverse_replicate]
  rw [List.takeWhile_append_of_pos
    (fun a ha => by rw [List.eq_of_mem_replicate ha]; decide)]
  rw [List.takeWhile_replicate]
  rw [if_neg (by decide)]
  simp

/-- The general evaluation of the background validation at a well-formed
    payload: the only remaining gate is the unpadded size estimate, which
    passes exactly when the encoded length is at least 1334. -/
theorem validateCertData_eval (payload : List Char)
    (hfmt : b64FormatOk payload = true) (hlen : 100 ≤ payload.length) :
    validateCertData (pdfUrlHead ++ payload) =
      if 1334 ≤ payload.length then Except.ok payload
      else Except.error CertError.decodedTooSmall := by
  have hcomma : ∀ c ∈ payload, c ≠ ',' := by
    intro c hc hc'
    subst hc'
    rcases b64FormatOk_chars payload hfmt ',' hc with h1 | h1
    · exact absurd h1 (by decide)
    · exact absurd h1 (by decide)
  have hextract : extractPayload (pdfUrlHead ++ payload) = payload := by
    unfold extractPayload
    rw [List.drop_left, takeWhile_all]
    intro c hc
    simpa using hcomma c hc
  have hstart : startsWithL pdfUrlHead (pdfUrlHead ++ payload) = true :=
    startsWithL_append pdfUrlHead payload
  unfold validateCertData
  rw [hstart]
  simp only [Bool.not_true, Bool.false_eq_true, if_false, hextract, hfmt,
    Bool.not_false, if_true]
  rw [if_neg (by omega)]
  have hdiv : payload.length * 3 / 4 < 1000 ↔ payload.length < 1334 := by
    rw [Nat.div_lt_iff_lt_mul (by norm_num)]
    omega
  by_cases hs : 1334 ≤ payload.length
  · rw [if_neg (by rw [hdiv]; omega), if_pos hs]
  · rw [if_pos (by rw [hdiv]; omega), if_neg hs]

/-- Claim C4 counterexample: the 1335-character payload of 1333 `A`s
    followed by `==` has estimated decoded size `floor(1335*3/4) - 2 = 999`
    under the claim's formula, below the 1000-byte minimum, so the claim
    requires a size failure; the code does not subtract the padding
    (`(pdfBase64.length * 3) / 4 = 1001 >= 1000`) and accepts the payload. -/
theorem claim4_counterexample :
    (validateCertData
        (pdfUrlHead ++ (List.replicate 1333 'A' ++ List.replicate 2 '='))).isOk
      = true ∧
    specSizeEstimate (List.replicate 1333 'A' ++ List.replicate 2 '=') < 1000 := by
  constructor
  · rw [validateCertData_eval _ (b64FormatOk_pad 1333 2 (by norm_num))
        (by simp only [List.length_append, List.length_replicate]; omega)]
    rw [if_pos (by simp only [List.length_append, List.length_replicate]; omega)]
    rfl
  · unfold specSizeEstimate
    rw [padCountOf_pad]
    simp only [List.length_append, List.length_replicate]
    decide

/-- Claim C4 (amended): the validator estimates the decoded size as
    `floor(len*3/4)` with no padding adjustment, and checks only the
    1000-byte minimum (there is no maximum check); for a well-formed payload
    that passed the earlier checks, the size check passes exactly when
    `len >= 1334`.  In particular a canonically encoded payload of exactly
    1000 bytes (length 1336) passes and one of 999 bytes (length 1332)
    fails with the size error. -/
theorem claim4_amended (payload : List Char)
    (hfmt : b64FormatOk payload = true) (hlen : 100 ≤ payload.length) :
    (validateCertData (pdfUrlHead ++ payload) =
        if 1334 ≤ payload.length then Except.ok payload
        else Except.error CertError.decodedTooSmall) ∧
    validateCertData (pdfUrlHead ++ List.replicate 1336 'A') =
      Except.ok (List.replicate 1336 'A') ∧
    validateCertData (pdfUrlHead ++ List.replicate 1332 'A') =
      Except.error CertError.decodedTooSmall := by
  refine ⟨validateCertData_eval payload hfmt hlen, ?_, ?_⟩
  · rw [validateCertData_eval _ (b64FormatOk_replicate 1336 (by norm_num))
        (by simp only [List.length_replicate]; omega)]
    rw [if_pos (by simp only [List.length_replicate]; omega)]
  · rw [validateCertData_eval _ (b64FormatOk_replicate 1332 (by norm_num))
        (by simp only [List.length_replicate]; omega)]
    rw [if_neg (by simp only [List.length_replicate]; omega)]

/-- Claim C4 witness: instantiating the amended claim at a concrete
    1334-character payload, exactly at the acceptance boundary. -/
theorem claim4_amended_witness :
    validateCertData (pdfUrlHead ++ List.replicate 1334 'A') =
      Except.ok (List.replicate 1334 'A') := by
  have h := (claim4_amended (List.replicate 1334 'A')
    (b64FormatOk_replicate 1334 (by norm_num))
    (by simp only [List.length_replicate]; omega)).1
  rw [h, if_pos (by simp only [List.length_replicate]; omega)]

/- ------------------------------------------------------------------ -/
/- Retry loop of sendEmailInBackground (source lines 376-415).        -/
/- ------------------------------------------------------------------ -/

/-- The externally visible steps of one delivery attempt. -/
inductive SmtpAction where
  | connect
  | send
  | disconnect
deriving DecidableEq

/-- Abstract outcome of one delivery attempt of the retry loop. -/
inductive AttemptOutcome where
  | success
  | failConnect
  | failSend
deriving DecidableEq

/-- The actions one loop iteration performs: `connect()` then
    `sendEmail(...)` then `disconnect()`; when `connect` or `sendEmail`
    throws, the `catch` block still calls `disconnect()`.  `connect`
    overwrites `this.conn` with a brand new TLS connection, so every
    attempt is a fresh session. -/
def attemptActions : AttemptOutcome → List SmtpAction
  | .success => [.connect, .send, .disconnect]
  | .failConnect => [.connect, .disconnect]
  | .failSend => [.connect, .send, .disconnect]

/-- The `while (attempt < maxAttempts)` loop with `maxAttempts = 3`;
    the structural fuel is `3 - attempt`.  Returns the per-attempt action
    traces, the final value of `attempt` (the number of attempts made),
    and whether a send succeeded. -/
def retryGo (outcomes : Nat → AttemptOutcome) :
    Nat → Nat → List (List SmtpAction) × Nat × Bool
  | 0, attempt => ([], attempt, false)
  | fuel + 1, attempt =>
    match outcomes attempt with
    | .success => ([attemptActions .success], attempt + 1, true)
    | o =>
      let r := retryGo outcomes fuel (attempt + 1)
      (attemptActions o :: r.1, r.2.1, r.2.2)

/-- The whole retry loop of `sendEmailInBackground`. -/
def sendWithRetry (outcomes : Nat → AttemptOutcome) :
    List (List SmtpAction) × Nat × Bool :=
  retryGo outcomes 3 0

theorem map_range_cons {α : Type} (g : Nat → α) (n : Nat) :
    (List.range (n + 1)).map g = g 0 :: (List.range n).map fun j => g (j + 1) := by
  rw [List.range_succ_eq_map, List.map_cons, List.map_map]
  rfl

theorem map_range_shift {α : Type} (g : Nat → α) (n a : Nat) :
    (List.range n).map (fun j => g (a + 1 + j)) =
      (List.range n).map (fun j => g (a + (j + 1))) := by
  apply List.map_congr_left
  intro j hj
  congr 1
  omega

theorem retryGo_attempt_le (outcomes : Nat → AttemptOutcome) (fuel a : Nat) :
    (retryGo outcomes fuel a).2.1 ≤ a + fuel := by
  induction fuel generalizing a with
  | zero => simp [retryGo]
  | succ fuel ih =>
    show (retryGo outcomes (fuel + 1) a).2.1 ≤ a + (fuel + 1)
    rw [retryGo]
    cases outcomes a with
    | success => exact show a + 1 ≤ a + (fuel + 1) by omega
    | failConnect => exact le_trans (ih (a + 1)) (by omega)
    | failSend => exact le_trans (ih (a + 1)) (by omega)

theorem retryGo_all_fail (outcomes : Nat → AttemptOutcome)
    (h : ∀ i, outcomes i ≠ .success) (fuel a : Nat) :
    retryGo outcomes fuel a =
      ((List.range fuel).map (fun j => attemptActions (outcomes (a + j))),
        a + fuel, false) := by
  induction fuel generalizing a with
  | zero => simp [retryGo]
  | succ fuel ih =>
    rw [retryGo]
    have hshift :
        (List.range (fuel + 1)).map (fun j => attemptActions (outcomes (a + j))) =
          attemptActions (outcomes a) ::
            (List.range fuel).map (fun j => attemptActions (outcomes (a + 1 + j))) := by
      rw [map_range_cons]
      simp only [Nat.add_zero]
      congr 1
      apply List.map_congr_left
      intro j hj
      have hj2 : a + (j + 1) = a + 1 + j := by omega
      rw [hj2]
    cases ho : outcomes a with
    | success => exact absurd ho (h a)
    | failConnect =>
      rw [ih (a + 1), hshift]
      simp [ho]
      omega
    | failSend =>
      rw [ih (a + 1), hshift]
      simp [ho]
      omega

theorem retryGo_first_success (outcomes : Nat → AttemptOutcome) (i : Nat) :
    ∀ fuel a, i < fuel → outcomes (a + i) = .success →
      (∀ j, j < i → outcomes (a + j) ≠ .success) →
      retryGo outcomes fuel a =
        ((List.range i).map (fun j => attemptActions (outcomes (a + j))) ++
          [attemptActions .success], a + i + 1, true) := by
  induction i with
  | zero =>
    intro fuel a hfuel hs _
    cases fuel with
    | zero => omega
    | succ fuel =>
      rw [retryGo]
      simp only [Nat.add_zero] at hs
      rw [hs]
      simp
  | succ i ih =>
    intro fuel a hfuel hs hprev
    cases fuel with
    | zero => omega
    | succ fuel =>
      rw [retryGo]
      have h0 : outcomes a ≠ .success := by
        have := hprev 0 (by omega)
        simpa using this
      have hrec := ih fuel (a + 1) (by omega)
        (by rw [show a + 1 + i = a + (i + 1) by omega]; exact hs)
        (fun j hj => by
          rw [show a + 1 + j = a + (j + 1) by omega]
          exact hprev (j + 1) (by omega))
      have hshift :
          (List.range (i + 1)).map (fun j => attemptActions (outcomes (a + j))) =
            attemptActions (outcomes a) ::
              (List.range i).map (fun j => attemptActions (outcomes (a + 1 + j))) := by
        rw [map_range_cons]
        simp only [Nat.add_zero]
        congr 1
        apply List.map_congr_left
        intro j hj
        have hj2 : a + (j + 1) = a + 1 + j := by omega
        rw [hj2]
      cases ho : outcomes a with
      | success => exact absurd ho h0
      | failConnect =>
        rw [hrec, hshift, ho]
        simp
        omega
      | failSend =>
        rw [hrec, hshift, ho]
        simp
        omega

theorem retryGo_traces (outcomes : Nat → AttemptOutcome) (fuel a : Nat) :
    ∀ t ∈ (retryGo outcomes fuel a).1, ∃ o, t = attemptActions o := by
  induction fuel generalizing a with
  | zero => simp [retryGo]
  | succ fuel ih =>
    rw [retryGo]
    cases outcomes a with
    | success => simp
    | failConnect =>
      intro t ht
      rcases List.mem_cons.mp ht with h1 | h1
      · exact ⟨_, h1⟩
      · exact ih (a + 1) t h1
    | failSend =>
      intro t ht
      rcases List.mem_cons.mp ht with h1 | h1
      · exact ⟨_, h1⟩
      · exact ih (a + 1) t h1

/-- Claim C7: the background sender makes at most 3 delivery attempts; a
    first success at attempt `i` ends the loop immediately with `i + 1`
    attempts and a success outcome; outcomes that always fail produce
    exactly 3 attempts and a terminal failure (the loop cannot run
    forever — `sendWithRetry` is a total function); and every attempt is a
    fresh `connect`-...-`disconnect` cycle. -/
theorem claim7_retry (outcomes : Nat → AttemptOutcome) :
    (sendWithRetry outcomes).2.1 ≤ 3 ∧
    ((∀ i, outcomes i ≠ .success) →
      sendWithRetry outcomes =
        ([attemptActions (outcomes 0), attemptActions (outcomes 1),
          attemptActions (outcomes 2)], 3, false)) ∧
    (∀ i, i < 3 → outcomes i = .success →
      (∀ j, j < i → outcomes j ≠ .success) →
      sendWithRetry outcomes =
        ((List.range i).map (fun j => attemptActions (outcomes j)) ++
          [attemptActions .success], i + 1, true)) ∧
    (∀ t ∈ (sendWithRetry outcomes).1,
      t.head? = some .connect ∧ t.getLast? = some .disconnect) := by
  refine ⟨retryGo_attempt_le outcomes 3 0, ?_, ?_, ?_⟩
  · intro h
    have := retryGo_all_fail outcomes h 3 0
    simpa [sendWithRetry, List.range_succ] using this
  · intro i hi hs hprev
    have := retryGo_first_success outcomes i 3 0 hi (by simpa using hs)
      (fun j hj => by simpa using hprev j hj)
    simpa [sendWithRetry] using this
  · intro t ht
    obtain ⟨o, rfl⟩ := retryGo_traces outcomes 3 0 t ht
    cases o <;> simp [attemptActions]

/-- Claim C7 witness: a transport that always fails with a connect error
    yields exactly 3 attempts, each a fresh connect/disconnect cycle,
    and a terminal failure. -/
theorem claim7_retry_witness :
    sendWithRetry (fun _ => AttemptOutcome.failConnect) =
      ([[SmtpAction.connect, SmtpAction.disconnect],
        [SmtpAction.connect, SmtpAction.disconnect],
        [SmtpAction.connect, SmtpAction.disconnect]], 3, false) := by
  have h := (claim7_retry (fun _ => AttemptOutcome.failConnect)).2.1
    (fun i hi => by cases hi)
  simpa [attemptActions] using h

/- ------------------------------------------------------------------ -/
/- readResponse (source lines 123-150).                               -/
/- ------------------------------------------------------------------ -/

/-- The response-completeness test `line && /^\d{3} /.test(line)`: three
    digits followed by a space (which forces the line nonempty). -/
def isTermLine (l : List Char) : Bool :=
  match l with
  | a :: b :: c :: d :: _ => a.isDigit && b.isDigit && c.isDigit && d = ' '
  | _ => false

/-- The `while (attempts < 20)` read loop: the structural fuel is
    `20 - attempts`, and `i` counts socket reads performed (in the source
    the two counters coincide, since `attempts` is incremented exactly once
    per read that continues the loop).  `reads i = none` models
    `conn.read` returning `null` (peer closed the connection).  Returns the
    result text and the number of reads consumed. -/
def readGo (reads : Nat → Option (List Char)) :
    Nat → Nat → List Char → List Char × Nat
  | 0, i, acc => (trimJs acc, i)
  | fuel + 1, i, acc =>
    match reads i with
    | none => (trimJs acc, i + 1)
    | some chunk =>
      if (splitCRLF (acc ++ chunk)).any isTermLine then
        (trimJs (acc ++ chunk), i + 1)
      else readGo reads fuel (i + 1) (acc ++ chunk)

/-- `readResponse()` as a function of the sequence of socket read
    results. -/
def readResponseModel (reads : Nat → Option (List Char)) : List Char × Nat :=
  readGo reads 20 0 []

theorem readGo_reads_le (reads : Nat → Option (List Char)) (fuel i : Nat)
    (acc : List Char) : (readGo reads fuel i acc).2 ≤ i + fuel := by
  induction fuel generalizing i acc with
  | zero => simp [readGo]
  | succ fuel ih =>
    cases hr : reads i with
    | none => simp [readGo, hr]
    | some chunk =>
      cases hterm : (splitCRLF (acc ++ chunk)).any isTermLine with
      | true => simp [readGo, hr, hterm]
      | false =>
        simp only [readGo, hr, hterm, Bool.false_eq_true, if_false]
        exact le_trans (ih (i + 1) (acc ++ chunk)) (by omega)

theorem readGo_result (reads : Nat → Option (List Char)) (fuel i : Nat)
    (acc : List Char)
    (hacc : acc = ((List.range i).filterMap reads).flatten) :
    (readGo reads fuel i acc).1 =
      trimJs (((List.range (readGo reads fuel i acc).2).filterMap reads).flatten) := by
  induction fuel generalizing i acc with
  | zero => simp [readGo, hacc]
  | succ fuel ih =>
    cases hr : reads i with
    | none =>
      have hflat : ((List.range (i + 1)).filterMap reads).flatten = acc := by
        rw [List.range_succ, List.filterMap_append, List.flatten_append, ← hacc]
        simp [hr]
      simp [readGo, hr, hflat]
    | some chunk =>
      have hnext : acc ++ chunk = ((List.range (i + 1)).filterMap reads).flatten := by
        rw [List.range_succ, List.filterMap_append, List.flatten_append, ← hacc]
        simp [hr]
      cases hterm : (splitCRLF (acc ++ chunk)).any isTermLine with
      | true =>
        simp only [readGo, hr, hterm, if_true]
        rw [hnext]
      | false =>
        simp only [readGo, hr, hterm, Bool.false_eq_true, if_false]
        exact ih (i + 1) (acc ++ chunk) hnext

theorem readGo_progress (reads : Nat → Option (List Char)) (fuel i : Nat)
    (acc : List Char)
    (hacc : acc = ((List.range i).filterMap reads).flatten)
    (hterm : (splitCRLF acc).any isTermLine = false) :
    ∀ j, i ≤ j → j + 1 < (readGo reads fuel i acc).2 →
      (reads j).isSome = true ∧
      ((splitCRLF (((List.range (j + 1)).filterMap reads).flatten)).any isTermLine)
        = false := by
  induction fuel generalizing i acc with
  | zero =>
    intro j hij hj
    simp [readGo] at hj
    omega
  | succ fuel ih =>
    intro j hij hj
    cases hr : reads i with
    | none =>
      simp [readGo, hr] at hj
      omega
    | some chunk =>
      have hnext : acc ++ chunk = ((List.range (i + 1)).filterMap reads).flatten := by
        rw [List.range_succ, List.filterMap_append, List.flatten_append, ← hacc]
        simp [hr]
      cases ht2 : (splitCRLF (acc ++ chunk)).any isTermLine with
      | true =>
        simp [readGo, hr, ht2] at hj
        omega
      | false =>
        simp only [readGo, hr, ht2, Bool.false_eq_true, if_false] at hj
        rcases Nat.lt_or_ge i j with hlt | hge
        · exact ih (i + 1) (acc ++ chunk) hnext ht2 j hlt hj
        · have hieq : j = i := by omega
          subst hieq
          refine ⟨by simp [hr], ?_⟩
          rw [← hnext]
          exact ht2

/-- Claim C10: `readResponse` never raises for any sequence of socket read
    results — it is a total function of the read stream.  It consumes at
    most 20 reads; the returned text is always the JavaScript-trimmed
    concatenation of the chunks consumed (so a closed connection or fuel
    exhaustion yields the partial, possibly empty, text rather than an
    error); before every read that is not the last one, the read delivered
    a chunk and the text accumulated so far contained no line matching the
    `^\d{3} ` terminator — in other words, the loop returns as soon as a
    line matches; and a connection closed on the first read yields the
    empty text after one read. -/
theorem claim10_readResponse (reads : Nat → Option (List Char)) :
    (readResponseModel reads).2 ≤ 20 ∧
    (readResponseModel reads).1 =
      trimJs (((List.range (readResponseModel reads).2).filterMap reads).flatten) ∧
    (∀ j, j + 1 < (readResponseModel reads).2 →
      (reads j).isSome = true ∧
      ((splitCRLF (((List.range (j + 1)).filterMap reads).flatten)).any isTermLine)
        = false) ∧
    (reads 0 = none → readResponseModel reads = ([], 1)) := by
  refine ⟨readGo_reads_le reads 20 0 [], readGo_result reads 20 0 [] (by simp), ?_, ?_⟩
  · intro j hj
    exact readGo_progress reads 20 0 [] (by simp) (by rfl) j (Nat.zero_le j) hj
  · intro h0
    simp [readResponseModel, readGo, h0, trimJs]

/-- Claim C10 witness: a connection that is closed before the first chunk
    arrives produces the empty response after a single read, with no
    exception. -/
theorem claim10_readResponse_witness :
    readResponseModel (fun _ => none) = ([], 1) :=
  (claim10_readResponse (fun _ => none)).2.2.2 rfl

/- ------------------------------------------------------------------ -/
/- sendEmail / sendCommand (source lines 50-93 and 108-121).          -/
/- ------------------------------------------------------------------ -/

/-- One item written to the socket during `sendEmail`. -/
inductive SmtpWrite where
  | command (text : List Char)
  | payload (text : List Char)
  | terminator
deriving DecidableEq

/-- The write sequence of one `sendEmail` call.  `sendCommand` writes the
    command, reads one response and only logs it — no branch of
    `sendCommand` inspects the response code — so the sequence of writes is
    the same whatever the server answers. -/
def sendEmailWrites (ehloHost user64 pass64 fromEmail toAddr msg : List Char) :
    List SmtpWrite :=
  [ .command ("EHLO ".toList ++ ehloHost),
    .command "AUTH LOGIN".toList,
    .command user64,
    .command pass64,
    .command ("MAIL FROM:<".toList ++ fromEmail ++ ">".toList),
    .command ("RCPT TO:<".toList ++ toAddr ++ ">".toList),
    .command "DATA".toList,
    .payload msg,
    .terminator ]

/-- One `sendEmail` call as a function of the server's scripted replies:
    `responses n` is the text returned by the n-th `readResponse` of the
    call (0 = EHLO reply, 1 = AUTH LOGIN, 2 = username, 3 = password,
    4 = MAIL FROM, 5 = RCPT TO, 6 = DATA, 7 = the post-message reply).
    Only the post-message reply is checked: unless it starts with "250",
    the generic `Email sending failed: ...` error is thrown. -/
def sendEmailRun (responses : Nat → List Char)
    (ehloHost user64 pass64 fromEmail toAddr msg : List Char) :
    List SmtpWrite × Except (List Char) Unit :=
  (sendEmailWrites ehloHost user64 pass64 fromEmail toAddr msg,
    if startsWithL "250".toList (responses 7) then .ok ()
    else .error ("Email sending failed: ".toList ++ responses 7))

/-- The reply script of claim C6: the server accepts everything except the
    RCPT TO command, which it rejects with a 550. -/
def rcptRejectScript : Nat → List Char :=
  fun n => if n = 5 then "550 5.1.1 User unknown".toList else "250 OK".toList

/-- Claim C6 evaluation at the failing input: with a server replying `550`
    at the RCPT TO step, the client still writes `DATA`, the whole message
    payload and the dot terminator after the rejected recipient — the
    transaction is not aborted, no `DeliveryRejectedError` exists, and
    because the only checked reply (the post-message one) starts with
    "250", the call even reports success. -/
theorem claim6_code_bug :
    rcptRejectScript 5 = "550 5.1.1 User unknown".toList ∧
    SmtpWrite.command "DATA".toList ∈
      (sendEmailRun rcptRejectScript "smtp.titan.email".toList
        "dXNlcg==".toList "cGFzcw==".toList
        "support@academicdigital.space".toList "a@b.co".toList
        "MIMEBODY".toList).1 ∧
    SmtpWrite.payload "MIMEBODY".toList ∈
      (sendEmailRun rcptRejectScript "smtp.titan.email".toList
        "dXNlcg==".toList "cGFzcw==".toList
        "support@academicdigital.space".toList "a@b.co".toList
        "MIMEBODY".toList).1 ∧
    (sendEmailRun rcptRejectScript "smtp.titan.email".toList
        "dXNlcg==".toList "cGFzcw==".toList
        "support@academicdigital.space".toList "a@b.co".toList
        "MIMEBODY".toList).2 = .ok () := by
  refine ⟨rfl, ?_, ?_, rfl⟩
  · simp [sendEmailRun, sendEmailWrites]
  · simp [sendEmailRun, sendEmailWrites]

/- ------------------------------------------------------------------ -/
/- HTTP handler (source lines 417-510).                               -/
/- ------------------------------------------------------------------ -/

/-- The three request fields the handler validates; `none` models a JSON
    body in which the field is absent (JavaScript `undefined`). -/
structure ReqFields where
  toField : Option (List Char)
  nameField : Option (List Char)
  urlField : Option (List Char)

/-- The distinct response bodies the handler can produce. -/
inductive HandlerBody where
  | queued
  | missingFields
  | invalidEmail
  | invalidUrlFormat
  | insufficientData
  | processError
deriving DecidableEq

/-- The JSON keys of each response body; the 200 body is
    `{ success: true, message: 'Certificate email queued for sending' }` —
    there is no `status` key. -/
def bodyKeys : HandlerBody → List (List Char)
  | .queued => ["success".toList, "message".toList]
  | .processError => ["error".toList, "details".toList]
  | _ => ["error".toList]

/-- JavaScript truthiness test `!field` for an optional string. -/
def emptyO : Option (List Char) → Bool
  | none => true
  | some s => s.isEmpty

/-- The handler's e-mail test `/^[^\s@]+@[^\s@]+\.[^\s@]+$/`: a nonempty
    run without whitespace or `@`, one `@`, then a tail without whitespace
    or `@` containing a `.` that has at least one character on each side. -/
def emailRegexOk (s : List Char) : Bool :=
  let pre := s.takeWhile (· ≠ '@')
  match s.drop pre.length with
  | '@' :: tail =>
    !pre.isEmpty && pre.all (fun c => !isJsWs c) &&
      !(tail.contains '@') && tail.all (fun c => !isJsWs c) &&
      (tail.drop 1).dropLast.contains '.'
  | _ => false

/-- The POST path of the handler (source lines 430-507).  Before any field
    check, line 434 computes `emailData.certificate_url.substring(0, 50)`;
    when `certificate_url` is absent this raises a `TypeError`, which the
    outer `catch` turns into a 500 response — the 400 validation branch is
    never reached. -/
def handlerPost (r : ReqFields) : Nat × HandlerBody :=
  match r.urlField with
  | none => (500, .processError)
  | some url =>
    if emptyO r.toField || emptyO r.nameField || url.isEmpty then
      (400, .missingFields)
    else if !(emailRegexOk (r.toField.getD [])) then (400, .invalidEmail)
    else if !(startsWithL pdfUrlHead url) then (400, .invalidUrlFormat)
    else if (extractPayload url).isEmpty || (extractPayload url).length < 100 then
      (400, .insufficientData)
    else (200, .queued)

/-- The request-shape test the handler actually enforces before answering
    200: all three fields present and nonempty, the address matching the
    e-mail pattern, the URL carrying the PDF data-URL marker and at least
    100 characters of payload. -/
def shapeOk (r : ReqFields) : Bool :=
  match r.urlField, r.toField, r.nameField with
  | some url, some t, some nm =>
    !t.isEmpty && !nm.isEmpty && !url.isEmpty && emailRegexOk t &&
      startsWithL pdfUrlHead url && !(extractPayload url).isEmpty &&
      !((extractPayload url).length < 100)
  | _, _, _ => false

/-- A well-formed request used below: all fields present, a 100-character
    payload. -/
def sampleReq : ReqFields :=
  ⟨some "a@b.co".toList, some "Jane Doe".toList,
    some (pdfUrlHead ++ List.replicate 100 'A')⟩

/-- Claim C8 counterexample: a POST whose `certificate_url` field is absent
    is answered with 500, not 400 — the logging line dereferences the field
    before any validation and the outer catch maps the `TypeError` to 500.
    Moreover the 200 body of a well-formed request has keys
    `success`/`message`; there is no `status: "queued"` field. -/
theorem claim8_counterexample :
    handlerPost ⟨some "a@b.co".toList, some "Jane Doe".toList, none⟩ =
      (500, HandlerBody.processError) ∧
    (500 : Nat) ≠ 400 ∧
    handlerPost sampleReq = (200, HandlerBody.queued) ∧
    bodyKeys (handlerPost sampleReq).2 = ["success".toList, "message".toList] ∧
    "status".toList ∉ bodyKeys (handlerPost sampleReq).2 := by
  refine ⟨rfl, by decide, rfl, rfl, by decide⟩

/-- Claim C8 (amended): the handler answers 200 — with body
    `{ success: true, message: 'Certificate email queued for sending' }`,
    which has no `status` key — exactly when the request shape passes all
    the handler's checks (deep payload validity is checked asynchronously
    afterwards); it answers 400 when `certificate_url` is present but the
    shape checks fail (missing/empty `to` or `participant_name`, bad e-mail
    format, bad data-URL marker, or payload under 100 characters); but a
    request with `certificate_url` absent is answered 500, because the
    handler dereferences the field for logging before validating it. -/
theorem claim8_amended (r : ReqFields) :
    ((handlerPost r).1 = 200 ↔ shapeOk r = true) ∧
    ((handlerPost r).1 = 200 →
      (handlerPost r).2 = HandlerBody.queued ∧
      bodyKeys (handlerPost r).2 = ["success".toList, "message".toList] ∧
      "status".toList ∉ bodyKeys (handlerPost r).2) ∧
    (r.urlField = none → handlerPost r = (500, HandlerBody.processError)) ∧
    (r.urlField ≠ none → shapeOk r = false → (handlerPost r).1 = 400) := by
  obtain ⟨to?, nm?, url?⟩ := r
  cases url? with
  | none =>
    refine ⟨by simp [handlerPost, shapeOk], by simp [handlerPost], fun _ => rfl,
      fun h _ => absurd rfl h⟩
  | some url =>
    have hmain : (handlerPost ⟨to?, nm?, some url⟩).1 = 200 ↔
        shapeOk ⟨to?, nm?, some url⟩ = true := by
      cases to? with
      | none => simp [handlerPost, shapeOk, emptyO]
      | some t =>
        cases nm? with
        | none => simp [handlerPost, shapeOk, emptyO]
        | some nm =>
          simp only [handlerPost, shapeOk, emptyO, Option.getD_some]
          by_cases h1 : t.isEmpty <;>
            by_cases h2 : nm.isEmpty <;>
              by_cases h3 : url.isEmpty <;>
                by_cases h4 : emailRegexOk t <;>
                  by_cases h5 : startsWithL pdfUrlHead url <;>
                    by_cases h6 : (extractPayload url).isEmpty <;>
                      by_cases h7 : (extractPayload url).length < 100 <;>
                        simp [h1, h2, h3, h4, h5, h6, h7]
    refine ⟨hmain, ?_, ?_, ?_⟩
    · intro h200
      have hq : (handlerPost ⟨to?, nm?, some url⟩).2 = HandlerBody.queued := by
        revert h200
        unfold handlerPost
        split
        · intro h; simp at h
        · split
          · intro h; simp at h
          · split
            · intro h; simp at h
            · split
              · intro h; simp at h
              · split
                · intro h; simp at h
                · intro _; rfl
      exact ⟨hq, by rw [hq]; rfl, by rw [hq]; decide⟩
    · intro h
      simp at h
    · intro _ hshape
      have h200 : ¬ (handlerPost ⟨to?, nm?, some url⟩).1 = 200 := by
        rw [hmain, hshape]
        simp
      revert h200
      unfold handlerPost
      split
      · rename_i heq
        simp at heq
      · split
        · intro _; rfl
        · split
          · intro _; rfl
          · split
            · intro _; rfl
            · split
              · intro _; rfl
              · intro h
                exact absurd rfl h

/-- Claim C8 witness: instantiating the amended claim at the sample
    well-formed request and at a request lacking `certificate_url`. -/
theorem claim8_amended_witness :
    (handlerPost sampleReq).1 = 200 ∧
    handlerPost ⟨some "a@b.co".toList, some "Jane Doe".toList, none⟩ =
      (500, HandlerBody.processError) := by
  constructor
  · exact (claim8_amended sampleReq).1.mpr (by decide)
  · exact (claim8_amended
      ⟨some "a@b.co".toList, some "Jane Doe".toList, none⟩).2.2.1 rfl

/- ------------------------------------------------------------------ -/
/- encodeQuotedPrintable (source lines 217-226).                      -/
/- ------------------------------------------------------------------ -/

/-- `charCodeAt(0).toString(16).toUpperCase()`, left-padded to two
    digits. -/
def hexPad (n : Nat) : List Char :=
  let h := (Nat.toDigits 16 n).map Char.toUpper
  if h.length = 1 then '0' :: h else h

/-- First replacement: every code unit at or above `\u0080` becomes `=`
    followed by its uppercase hexadecimal digits. -/
def qp1 : List Char → List Char
  | [] => []
  | c :: rest =>
    if 128 ≤ c.toNat then '=' :: (hexPad c.toNat ++ qp1 rest) else c :: qp1 rest

/-- Second replacement, `/=/g → '=3D'`: it runs on the output of the first
    one, so even the `=` signs the first step introduced are re-escaped
    (faithful to the source). -/
def qp2 : List Char → List Char
  | [] => []
  | c :: rest => if c = '=' then '=' :: '3' :: 'D' :: qp2 rest else c :: qp2 rest

/-- Third replacement, `/\r?\n/g → '\r\n'`: normalize newlines (a lone
    `\r` passes through untouched). -/
def qp3 : List Char → List Char
  | [] => []
  | '\r' :: '\n' :: rest => '\r' :: '\n' :: qp3 rest
  | '\n' :: rest => '\r' :: '\n' :: qp3 rest
  | c :: rest => c :: qp3 rest

/-- Fourth replacement, `/(.{75})/g → '$1=\r\n'`: insert a soft break
    after every 75 consecutive non-newline characters; `k` counts the
    characters already emitted in the current run (`.` matches neither
    `\r` nor `\n`, so runs restart after line breaks). -/
def qp4 : Nat → List Char → List Char
  | _, [] => []
  | k, c :: rest =>
    if c = '\r' ∨ c = '\n' then c :: qp4 0 rest
    else if k = 74 then c :: '=' :: '\r' :: '\n' :: qp4 0 rest
    else c :: qp4 (k + 1) rest

/-- The whole of `encodeQuotedPrintable`. -/
def encodeQP (text : List Char) : List Char :=
  qp4 0 (qp3 (qp2 (qp1 text)))

/-- Scanner state for the `=`-discipline of quoted-printable output: when
    the flag is set the previous character was an `=` that must be followed
    by `3`. -/
def eqSt : Bool → List Char → Bool
  | false, [] => true
  | true, [] => false
  | true, c :: rest => c = '3' && eqSt false rest
  | false, c :: rest => eqSt (c = '=') rest

/-- A line of quoted-printable output: every `=` is followed by `3`,
    closes the line, or is the first of a final `==` pair left by a soft
    break landing between `=` and `3`. -/
def qpLineOk : List Char → Bool
  | [] => true
  | c :: rest =>
    if c = '=' then
      match rest with
      | [] => true
      | ['='] => true
      | c2 :: rest2 => c2 = '3' && qpLineOk rest2
    else qpLineOk rest

theorem qpLineOk_cons_ne (c : Char) (l : List Char) (h : c ≠ '=') :
    qpLineOk (c :: l) = qpLineOk l := by
  rw [qpLineOk.eq_def]
  simp [h]

theorem qpLineOk_eq_three (l : List Char) :
    qpLineOk ('=' :: '3' :: l) = qpLineOk l := by
  rw [qpLineOk.eq_def]
  cases l with
  | nil => simp [qpLineOk]
  | cons a b => simp [qpLineOk]

theorem qp3_cons (c : Char) (rest : List Char)
    (h1 : ∀ r2, c = '\r' → rest = '\n' :: r2 → False) (h2 : c ≠ '\n') :
    qp3 (c :: rest) = c :: qp3 rest := by
  rw [qp3.eq_def]
  split
  · rename_i heq; simp at heq
  · rename_i r2 heq
    injection heq with a b
    exact (h1 r2 a b).elim
  · rename_i heq
    injection heq with a b
    exact absurd a h2
  · rename_i heq
    injection heq with a b
    subst a; subst b; rfl

theorem qp2_eqSt (s : List Char) : eqSt false (qp2 s) = true := by
  induction s with
  | nil => rfl
  | cons c rest ih =>
    by_cases hc : c = '='
    · simp [qp2, hc, eqSt, ih]
    · simp [qp2, hc, eqSt, ih]

theorem qp3_eqSt (s : List Char) : ∀ b, eqSt b s = true → eqSt b (qp3 s) = true := by
  induction s using qp3.induct with
  | case1 => intro b h; exact h
  | case2 rest ih =>
    intro b h
    cases b with
    | true => simp [eqSt] at h
    | false =>
      have h' : eqSt false rest = true := by simpa [eqSt] using h
      show eqSt false ('\r' :: '\n' :: qp3 rest) = true
      simpa [eqSt] using ih false h'
  | case3 rest ih =>
    intro b h
    cases b with
    | true => simp [eqSt] at h
    | false =>
      have h' : eqSt false rest = true := by simpa [eqSt] using h
      show eqSt false ('\r' :: '\n' :: qp3 rest) = true
      simpa [eqSt] using ih false h'
  | case4 c rest hs1 hs2 ih =>
    intro b h
    rw [qp3_cons c rest hs1 (fun hh => hs2 hh)]
    cases b with
    | true =>
      simp only [eqSt, Bool.and_eq_true, decide_eq_true_eq] at h ⊢
      exact ⟨h.1, ih false h.2⟩
    | false =>
      have h' : eqSt (c = '=') rest = true := by simpa [eqSt] using h
      simpa [eqSt] using ih _ h'

theorem qp4_head (k : Nat) (c : Char) (rest : List Char) :
    (qp4 k (c :: rest)).head? = some c := by
  rw [qp4]
  by_cases h1 : c = '\r' ∨ c = '\n'
  · simp [h1]
  · by_cases h2 : k = 74 <;> simp [h1, h2]

theorem eqSt_true_shape (s : List Char) (h : eqSt true s = true) :
    ∃ s2, s = '3' :: s2 ∧ eqSt false s2 = true := by
  cases s with
  | nil => simp [eqSt] at h
  | cons c rest =>
    simp only [eqSt, Bool.and_eq_true, decide_eq_true_eq] at h
    exact ⟨rest, by rw [h.1], h.2⟩

theorem qp4_lines (n : Nat) : ∀ s : List Char, s.length ≤ n → ∀ k b,
    eqSt b s = true → ∀ l ∈ splitCRLF (qp4 k s), qpLineOk l = true := by
  induction n with
  | zero =>
    intro s hs k b h l hl
    have : s = [] := List.eq_nil_of_length_eq_zero (Nat.le_zero.mp hs)
    subst this
    simp [qp4, splitCRLF] at hl
    simp [hl, qpLineOk]
  | succ n ih =>
    intro s hs k b h l hl
    cases s with
    | nil =>
      simp [qp4, splitCRLF] at hl
      simp [hl, qpLineOk]
    | cons c rest =>
      by_cases hcr : c = '\r' ∨ c = '\n'
      · -- line-break characters reset the run; they cannot occur when the
        -- flag is set (they are not '3')
        cases b with
        | true =>
          obtain ⟨s2, hshape, _⟩ := eqSt_true_shape _ h
          injection hshape with hc1 _
          rcases hcr with h1 | h1 <;> rw [h1] at hc1 <;> simp at hc1
        | false =>
          have hrest : eqSt false rest = true := by
            rcases hcr with h1 | h1 <;> subst h1 <;> simpa [eqSt] using h
          rw [qp4, if_pos hcr] at hl
          rcases hcr with h1 | h1
          · subst h1
            -- c = '\r' : look at whether an LF follows
            cases rest with
            | nil =>
              simp [qp4, splitCRLF] at hl
              simp [hl, qpLineOk]
            | cons c2 rest2 =>
              by_cases h2 : c2 = '\n'
              · subst h2
                have hrest2 : eqSt false rest2 = true := by
                  simpa [eqSt] using hrest
                rw [show qp4 0 ('\n' :: rest2) = '\n' :: qp4 0 rest2 by
                  rw [qp4]; simp] at hl
                rw [show splitCRLF ('\r' :: '\n' :: qp4 0 rest2) =
                    [] :: splitCRLF (qp4 0 rest2) from rfl] at hl
                rcases List.mem_cons.mp hl with h3 | h3
                · simp [h3, qpLineOk]
                · exact ih rest2 (by simp at hs; omega) 0 false hrest2 l h3
              · -- lone carriage return: prepended to the next line
                have hside : ∀ r2, ('\r' : Char) = '\r' →
                    qp4 0 (c2 :: rest2) = '\n' :: r2 → False := by
                  intro r2 _ habs
                  have := qp4_head 0 c2 rest2
                  rw [habs] at this
                  simp at this
                  exact h2 this.symm
                rw [splitCRLF_cons _ _ hside] at hl
                rcases List.mem_cons.mp hl with h3 | h3
                · subst h3
                  have hmem : (splitCRLF (qp4 0 (c2 :: rest2))).headD [] ∈
                      splitCRLF (qp4 0 (c2 :: rest2)) := by
                    cases hsp : splitCRLF (qp4 0 (c2 :: rest2)) with
                    | nil => exact absurd hsp (splitCRLF_ne_nil _)
                    | cons m ms => simp
                  have hok := ih (c2 :: rest2) (by simp at hs ⊢; omega) 0 false
                    hrest _ hmem
                  rw [qpLineOk_cons_ne _ _ (by decide)]
                  exact hok
                · exact ih (c2 :: rest2) (by simp at hs ⊢; omega) 0 false hrest l
                    (List.mem_of_mem_tail h3)
          · subst h1
            -- c = '\n' : prepended to the next line
            have hside : ∀ r2, ('\n' : Char) = '\r' → qp4 0 rest = '\n' :: r2 →
                False := by
              intro r2 habs _
              simp at habs
            rw [splitCRLF_cons _ _ hside] at hl
            rcases List.mem_cons.mp hl with h3 | h3
            · subst h3
              have hmem : (splitCRLF (qp4 0 rest)).headD [] ∈
                  splitCRLF (qp4 0 rest) := by
                cases hsp : splitCRLF (qp4 0 rest) with
                | nil => exact absurd hsp (splitCRLF_ne_nil _)
                | cons m ms => simp
              have hok := ih rest (by simp at hs; omega) 0 false hrest _ hmem
              rw [qpLineOk_cons_ne _ _ (by decide)]
              exact hok
            · exact ih rest (by simp at hs; omega) 0 false hrest l
                (List.mem_of_mem_tail h3)
      · -- an ordinary character
        push_neg at hcr
        obtain ⟨hc1, hc2⟩ := hcr
        -- the state for the rest of the input
        by_cases hk : k = 74
        · -- soft break inserted after this character
          rw [qp4, if_neg (by tauto), if_pos hk] at hl
          have hline : splitCRLF (c :: '=' :: '\r' :: '\n' :: qp4 0 rest) =
              [c, '='] :: splitCRLF (qp4 0 rest) := by
            have := splitCRLF_append [c, '='] (qp4 0 rest) (by
              simp [hasCRLF, hc1])
            simpa using this
          rw [hline] at hl
          rcases List.mem_cons.mp hl with h3 | h3
          · subst h3
            by_cases hce : c = '='
            · rw [hce]
              rfl
            · rw [qpLineOk_cons_ne _ _ hce]
              rfl
          · -- the recursion continues with the state after `c`
            cases b with
            | true =>
              obtain ⟨s2, hshape, hs2⟩ := eqSt_true_shape _ h
              injection hshape with hcc hrr
              exact ih rest (by simp at hs; omega) 0 false
                (by rw [hrr]; exact hs2) l h3
            | false =>
              have hrest : eqSt (c = '=') rest = true := by
                simpa [eqSt] using h
              exact ih rest (by simp at hs; omega) 0 _ hrest l h3
        · -- no soft break: the character is prepended to the first line
          rw [qp4, if_neg (by tauto), if_neg hk] at hl
          have hside : ∀ r2, c = '\r' → qp4 (k + 1) rest = '\n' :: r2 →
              False := fun r2 hc _ => hc1 hc
          rw [splitCRLF_cons _ _ hside] at hl
          rcases List.mem_cons.mp hl with h3 | h3
          · subst h3
            cases b with
            | true =>
              obtain ⟨s2, hshape, hs2⟩ := eqSt_true_shape _ h
              injection hshape with hcc hrr
              have hmem : (splitCRLF (qp4 (k + 1) rest)).headD [] ∈
                  splitCRLF (qp4 (k + 1) rest) := by
                cases hsp : splitCRLF (qp4 (k + 1) rest) with
                | nil => exact absurd hsp (splitCRLF_ne_nil _)
                | cons m ms => simp
              have hok := ih rest (by simp at hs; omega) (k + 1) false
                (by rw [hrr]; exact hs2) _ hmem
              rw [hcc, qpLineOk_cons_ne _ _ (by decide)]
              exact hok
            | false =>
              have hrest : eqSt (c = '=') rest = true := by
                simpa [eqSt] using h
              by_cases hce : c = '='
              · -- the next character must be '3'
                subst hce
                have hrest' : eqSt true rest = true := by simpa using hrest
                obtain ⟨s2, hshape, hs2⟩ := eqSt_true_shape rest hrest'
                subst hshape
                have hq : ∃ X2, qp4 (k + 1) ('3' :: s2) = '3' :: X2 := by
                  rw [qp4]
                  by_cases h74 : k + 1 = 74 <;> simp [h74]
                obtain ⟨X2, hX⟩ := hq
                have hside3 : ∀ r2, ('3' : Char) = '\r' → X2 = '\n' :: r2 →
                    False := by
                  intro r2 hh _
                  simp at hh
                have hfl : (splitCRLF (qp4 (k + 1) ('3' :: s2))).headD [] =
                    '3' :: (splitCRLF X2).headD [] := by
                  rw [hX, splitCRLF_cons _ _ hside3]
                  rfl
                have hmem : (splitCRLF (qp4 (k + 1) ('3' :: s2))).headD [] ∈
                    splitCRLF (qp4 (k + 1) ('3' :: s2)) := by
                  cases hsp : splitCRLF (qp4 (k + 1) ('3' :: s2)) with
                  | nil => exact absurd hsp (splitCRLF_ne_nil _)
                  | cons m ms => simp
                have hok := ih ('3' :: s2) (by simp at hs ⊢; omega) (k + 1) false
                  (by simpa [eqSt] using hs2) _ hmem
                rw [hfl] at hok
                rw [hfl, qpLineOk_eq_three]
                rw [qpLineOk_cons_ne _ _ (by decide)] at hok
                exact hok
              · have hmem : (splitCRLF (qp4 (k + 1) rest)).headD [] ∈
                    splitCRLF (qp4 (k + 1) rest) := by
                  cases hsp : splitCRLF (qp4 (k + 1) rest) with
                  | nil => exact absurd hsp (splitCRLF_ne_nil _)
                  | cons m ms => simp
                have hok := ih rest (by simp at hs; omega) (k + 1) _ hrest _ hmem
                rw [qpLineOk_cons_ne _ _ hce]
                exact hok
          · cases b with
            | true =>
              obtain ⟨s2, hshape, hs2⟩ := eqSt_true_shape _ h
              injection hshape with hcc hrr
              exact ih rest (by simp at hs; omega) (k + 1) false
                (by rw [hrr]; exact hs2) l (List.mem_of_mem_tail h3)
            | false =>
              have hrest : eqSt (c = '=') rest = true := by
                simpa [eqSt] using h
              exact ih rest (by simp at hs; omega) (k + 1) _ hrest l
                (List.mem_of_mem_tail h3)

theorem encodeQP_lines (html : List Char) :
    ∀ l ∈ splitCRLF (encodeQP html), qpLineOk l = true := by
  intro l hl
  have h1 : eqSt false (qp2 (qp1 html)) = true := qp2_eqSt _
  have h2 : eqSt false (qp3 (qp2 (qp1 html))) = true := qp3_eqSt _ false h1
  exact qp4_lines (qp3 (qp2 (qp1 html))).length _ le_rfl 0 false h2 l hl

/- ------------------------------------------------------------------ -/
/- buildMimeMessage (source lines 152-215).                           -/
/- ------------------------------------------------------------------ -/

/-- The fixed leading characters of every generated boundary
    `` `----=NextPart_${Date.now()}_${Math.random().toString(36)}` ``;
    the varying timestamp/random tail is the `suffix` parameter below. -/
def npHead : List Char :=
  ['-', '-', '-', '-', '=', 'N', 'e', 'x', 't', 'P', 'a', 'r', 't', '_']

theorem npHead_spelling : npHead = "----=NextPart_".toList := rfl

/-- The input fields of `buildMimeMessage`. -/
structure MailData where
  fromAddr : List Char
  toAddr : List Char
  subject : List Char
  html : List Char
  pdfBase64 : List Char
  filename : List Char

/-- The lines of the built MIME message, in order, with the
    non-deterministic values (boundary, message id, date, content id)
    passed in as parameters.  `encodeQP d.html` and the wrapped base64
    body are multi-line entries; the final message is their CRLF join. -/
def mimeLines (boundary msgId date cid : List Char) (d : MailData) :
    List (List Char) :=
  [ "Message-ID: ".toList ++ msgId,
    "Date: ".toList ++ date,
    "From: ".toList ++ d.fromAddr,
    "To: ".toList ++ d.toAddr,
    "Subject: ".toList ++ d.subject,
    "MIME-Version: 1.0".toList,
    "Content-Type: multipart/mixed; boundary=\"".toList ++ boundary ++ ['"'],
    "X-Mailer: Metascholar Certificate System".toList,
    [],
    "This is a multi-part message in MIME format.".toList,
    [],
    ['-', '-'] ++ boundary,
    "Content-Type: text/html; charset=utf-8".toList,
    "Content-Transfer-Encoding: quoted-printable".toList,
    [],
    encodeQP d.html,
    [],
    ['-', '-'] ++ boundary,
    "Content-Type: application/pdf; name=\"".toList ++ d.filename ++ ['"'],
    "Content-Disposition: attachment; filename=\"".toList ++ d.filename ++ ['"'],
    "Content-Transfer-Encoding: base64".toList,
    "Content-ID: <certificate_".toList ++ cid ++ ['>'],
    [],
    joinCRLF (chunks76 (cleanB64 d.pdfBase64)),
    [],
    ['-', '-'] ++ boundary ++ ['-', '-'],
    [] ]

/-- `buildMimeMessage`: clean the base64 text, reject it (the source
    throws) unless it matches `/^[A-Za-z0-9+/]+=*$/`, wrap it to 76-column
    lines and emit the multipart message. -/
def buildMimeMessage (boundary msgId date cid : List Char) (d : MailData) :
    Option (List Char) :=
  if b64FormatOk (cleanB64 d.pdfBase64) then
    some (joinCRLF (mimeLines boundary msgId date cid d))
  else none

/-- No line of generated-boundary shape survives quoted-printable
    encoding: the `=` at position 4 would have to be followed by `N`. -/
theorem qpLineOk_npHead (suffix : List Char) :
    qpLineOk (npHead ++ suffix) = false := by
  show qpLineOk ('-' :: '-' :: '-' :: '-' :: '=' :: 'N' ::
    ("extPart_".toList ++ suffix)) = false
  rw [qpLineOk_cons_ne _ _ (by decide), qpLineOk_cons_ne _ _ (by decide),
    qpLineOk_cons_ne _ _ (by decide), qpLineOk_cons_ne _ _ (by decide)]
  rw [qpLineOk.eq_def]
  simp

/-- Claim C2 counterexample: `buildMimeMessage` performs no collision
    check.  With an HTML body that contains the generated boundary
    verbatim, the builder does not regenerate a different boundary: the
    message is built, and its `Content-Type` header still carries the
    original boundary. -/
theorem claim2_counterexample :
    (⟨"F".toList, "T".toList, "S".toList, npHead ++ "0_x".toList,
        "QUJD".toList, "f.pdf".toList⟩ : MailData).html =
      npHead ++ "0_x".toList ∧
    buildMimeMessage (npHead ++ "0_x".toList) "m1".toList "d1".toList
        "c1".toList
        ⟨"F".toList, "T".toList, "S".toList, npHead ++ "0_x".toList,
          "QUJD".toList, "f.pdf".toList⟩ =
      some (joinCRLF (mimeLines (npHead ++ "0_x".toList) "m1".toList
        "d1".toList "c1".toList
        ⟨"F".toList, "T".toList, "S".toList, npHead ++ "0_x".toList,
          "QUJD".toList, "f.pdf".toList⟩)) ∧
    ("Content-Type: multipart/mixed; boundary=\"".toList ++
        (npHead ++ "0_x".toList) ++ ['"']) ∈
      mimeLines (npHead ++ "0_x".toList) "m1".toList "d1".toList "c1".toList
        ⟨"F".toList, "T".toList, "S".toList, npHead ++ "0_x".toList,
          "QUJD".toList, "f.pdf".toList⟩ := by
  refine ⟨rfl, rfl, ?_⟩
  simp [mimeLines]

/-- Claim C2 (amended): the builder never detects collisions and never
    regenerates the boundary; nevertheless the property the spec derives
    from the regeneration holds by itself: a boundary of the generated
    shape `----=NextPart_*` never appears as a full line within either
    body part's content, because every content line of the HTML part is
    quoted-printable output (its `=` signs are always followed by `3`,
    never by `N`) and the base64 part's lines use only the base64
    alphabet, which lacks `-`. -/
theorem claim2_amended (suffix html pdf : List Char)
    (hfmt : b64FormatOk (cleanB64 pdf) = true) :
    (∀ l ∈ splitCRLF (encodeQP html), l ≠ npHead ++ suffix) ∧
    (∀ l ∈ chunks76 (cleanB64 pdf), l ≠ npHead ++ suffix) := by
  constructor
  · intro l hl heq
    have hok := encodeQP_lines html l hl
    rw [heq, qpLineOk_npHead] at hok
    exact absurd hok (by decide)
  · intro l hl heq
    have hdash : '-' ∈ l := by
      rw [heq]
      exact List.mem_append_left _ (by decide)
    have hmem : '-' ∈ cleanB64 pdf := chunks76_mem_chars _ l hl '-' hdash
    rcases b64FormatOk_chars _ hfmt '-' hmem with h | h
    · exact absurd h (by decide)
    · exact absurd h (by decide)

/-- Claim C2 witness: instantiating the amended claim at a concrete
    boundary, HTML body and base64 payload. -/
theorem claim2_amended_witness :
    "hello".toList ≠ npHead ++ "0_x".toList := by
  have h := (claim2_amended "0_x".toList "hello".toList "QUJD".toList
    (by rfl)).1
  exact h "hello".toList (by decide)

/- ------------------------------------------------------------------ -/
/- Standard base64 codec (the encoding applied by the data-URL          -/
/- producer and the decoding applied by a standards-compliant MIME     -/
/- reader; both are external to the repository).                       -/
/- ------------------------------------------------------------------ -/

/-- Modelled from the spec: the standard base64 alphabet. -/
def b64Alphabet : List Char :=
  "ABCDEFGHIJKLMNOPQRSTUVWXYZabcdefghijklmnopqrstuvwxyz0123456789+/".toList

/-- Modelled from the spec: the alphabet character of a 6-bit value. -/
def b64CharOf (n : Nat) : Char := b64Alphabet.getD n 'A'

/-- Modelled from the spec: the 6-bit value of an alphabet character. -/
def b64IdxOf (c : Char) : Nat := b64Alphabet.indexOf c

/-- Modelled from the spec: standard base64 encoding of a byte sequence,
    three bytes to four characters, `=`-padded. -/
def b64Encode : List Nat → List Char
  | [] => []
  | [a] => [b64CharOf (a / 4), b64CharOf (a % 4 * 16), '=', '=']
  | [a, b] => [b64CharOf (a / 4), b64CharOf (a % 4 * 16 + b / 16),
      b64CharOf (b % 16 * 4), '=']
  | a :: b :: c :: rest =>
    b64CharOf (a / 4) :: b64CharOf (a % 4 * 16 + b / 16) ::
      b64CharOf (b % 16 * 4 + c / 64) :: b64CharOf (c % 64) :: b64Encode rest

/-- Modelled from the spec: standard base64 decoding, four characters to
    three bytes, honoring `=` padding. -/
def b64Decode : List Char → List Nat
  | c1 :: c2 :: c3 :: c4 :: rest =>
    let n1 := b64IdxOf c1
    let n2 := b64IdxOf c2
    if c3 = '=' then [n1 * 4 + n2 / 16]
    else
      let n3 := b64IdxOf c3
      if c4 = '=' then [n1 * 4 + n2 / 16, n2 % 16 * 16 + n3 / 4]
      else [n1 * 4 + n2 / 16, n2 % 16 * 16 + n3 / 4,
        n3 % 4 * 64 + b64IdxOf c4] ++ b64Decode rest
  | _ => []

theorem b64IdxOf_b64CharOf (n : Nat) (h : n < 64) :
    b64IdxOf (b64CharOf n) = n := by
  have : ∀ m, m < 64 → b64IdxOf (b64CharOf m) = m := by decide
  exact this n h

theorem b64CharOf_ne_pad (n : Nat) : b64CharOf n ≠ '=' := by
  by_cases h : n < 64
  · have : ∀ m, m < 64 → b64CharOf m ≠ '=' := by decide
    exact this n h
  · unfold b64CharOf
    rw [List.getD_eq_default _ _ (by simp [b64Alphabet]; omega)]
    decide

theorem isB64Char_b64CharOf (n : Nat) : isB64Char (b64CharOf n) = true := by
  by_cases h : n < 64
  · have : ∀ m, m < 64 → isB64Char (b64CharOf m) = true := by decide
    exact this n h
  · unfold b64CharOf
    rw [List.getD_eq_default _ _ (by simp [b64Alphabet]; omega)]
    decide

/-- Round trip of the codec: decoding an encoded byte sequence restores
    it exactly, padding cases included. -/
theorem b64Decode_b64Encode (B : List Nat) (h : ∀ x ∈ B, x < 256) :
    b64Decode (b64Encode B) = B := by
  induction B using b64Encode.induct with
  | case1 => rfl
  | case2 a =>
    have ha : a < 256 := h a (by simp)
    show b64Decode [b64CharOf (a / 4), b64CharOf (a % 4 * 16), '=', '='] = [a]
    rw [b64Decode]
    rw [if_pos rfl]
    rw [b64IdxOf_b64CharOf _ (by omega), b64IdxOf_b64CharOf _ (by omega)]
    simp only [List.cons.injEq, and_true]
    omega
  | case3 a b =>
    have ha : a < 256 := h a (by simp)
    have hb : b < 256 := h b (by simp)
    show b64Decode [b64CharOf (a / 4), b64CharOf (a % 4 * 16 + b / 16),
      b64CharOf (b % 16 * 4), '='] = [a, b]
    rw [b64Decode]
    rw [if_neg (b64CharOf_ne_pad _), if_pos rfl]
    rw [b64IdxOf_b64CharOf _ (by omega), b64IdxOf_b64CharOf _ (by omega),
      b64IdxOf_b64CharOf _ (by omega)]
    simp only [List.cons.injEq, and_true]
    omega
  | case4 a b c rest ih =>
    have ha : a < 256 := h a (by simp)
    have hb : b < 256 := h b (by simp)
    have hc : c < 256 := h c (by simp)
    show b64Decode (b64CharOf (a / 4) :: b64CharOf (a % 4 * 16 + b / 16) ::
      b64CharOf (b % 16 * 4 + c / 64) :: b64CharOf (c % 64) ::
      b64Encode rest) = a :: b :: c :: rest
    rw [b64Decode]
    rw [if_neg (b64CharOf_ne_pad _), if_neg (b64CharOf_ne_pad _)]
    rw [b64IdxOf_b64CharOf _ (by omega), b64IdxOf_b64CharOf _ (by omega),
      b64IdxOf_b64CharOf _ (by omega), b64IdxOf_b64CharOf _ (by omega)]
    rw [ih (fun x hx => h x (by simp [hx]))]
    simp only [List.cons_append, List.nil_append, List.cons.injEq]
    refine ⟨by omega, by omega, by omega, trivial⟩

/-- Every character of an encoded sequence is an alphabet character or a
    pad. -/
theorem b64Encode_chars (B : List Nat) :
    ∀ c ∈ b64Encode B, isB64Char c = true ∨ c = '=' := by
  induction B using b64Encode.induct with
  | case1 => simp [b64Encode]
  | case2 a =>
    intro c hc
    simp only [b64Encode, List.mem_cons, List.not_mem_nil, or_false] at hc
    rcases hc with rfl | rfl | rfl | rfl
    · exact Or.inl (isB64Char_b64CharOf _)
    · exact Or.inl (isB64Char_b64CharOf _)
    · exact Or.inr rfl
    · exact Or.inr rfl
  | case3 a b =>
    intro c hc
    simp only [b64Encode, List.mem_cons, List.not_mem_nil, or_false] at hc
    rcases hc with rfl | rfl | rfl | rfl
    · exact Or.inl (isB64Char_b64CharOf _)
    · exact Or.inl (isB64Char_b64CharOf _)
    · exact Or.inl (isB64Char_b64CharOf _)
    · exact Or.inr rfl
  | case4 a b c rest ih =>
    intro x hx
    simp only [b64Encode, List.mem_cons] at hx
    rcases hx with rfl | rfl | rfl | rfl | hx
    · exact Or.inl (isB64Char_b64CharOf _)
    · exact Or.inl (isB64Char_b64CharOf _)
    · exact Or.inl (isB64Char_b64CharOf _)
    · exact Or.inl (isB64Char_b64CharOf _)
    · exact ih x hx

/-- An encoded sequence splits as a nonempty alphabet core followed by
    pads. -/
theorem b64Encode_split (B : List Nat) (hne : B ≠ []) :
    ∃ core pads, b64Encode B = core ++ pads ∧ core ≠ [] ∧
      (∀ c ∈ core, isB64Char c = true) ∧ (∀ c ∈ pads, c = '=') := by
  induction B using b64Encode.induct with
  | case1 => exact absurd rfl hne
  | case2 a =>
    refine ⟨[b64CharOf (a / 4), b64CharOf (a % 4 * 16)], ['=', '='], rfl,
      by simp, ?_, by simp⟩
    intro c hc
    simp only [List.mem_cons, List.not_mem_nil, or_false] at hc
    rcases hc with rfl | rfl <;> exact isB64Char_b64CharOf _
  | case3 a b =>
    refine ⟨[b64CharOf (a / 4), b64CharOf (a % 4 * 16 + b / 16),
      b64CharOf (b % 16 * 4)], ['='], rfl, by simp, ?_, by simp⟩
    intro c hc
    simp only [List.mem_cons, List.not_mem_nil, or_false] at hc
    rcases hc with rfl | rfl | rfl <;> exact isB64Char_b64CharOf _
  | case4 a b c rest ih =>
    by_cases hr : rest = []
    · subst hr
      refine ⟨[b64CharOf (a / 4), b64CharOf (a % 4 * 16 + b / 16),
        b64CharOf (b % 16 * 4 + c / 64), b64CharOf (c % 64)], [], by
          simp [b64Encode], by simp, ?_, by simp⟩
      intro x hx
      simp only [List.mem_cons, List.not_mem_nil, or_false] at hx
      rcases hx with rfl | rfl | rfl | rfl <;> exact isB64Char_b64CharOf _
    · obtain ⟨core, pads, heq, hcne, hcore, hpads⟩ := ih hr
      refine ⟨b64CharOf (a / 4) :: b64CharOf (a % 4 * 16 + b / 16) ::
        b64CharOf (b % 16 * 4 + c / 64) :: b64CharOf (c % 64) :: core, pads,
        by simp [b64Encode, heq], by simp, ?_, hpads⟩
      intro x hx
      simp only [List.mem_cons] at hx
      rcases hx with rfl | rfl | rfl | rfl | hx
      · exact isB64Char_b64CharOf _
      · exact isB64Char_b64CharOf _
      · exact isB64Char_b64CharOf _
      · exact isB64Char_b64CharOf _
      · exact hcore x hx

theorem b64FormatOk_of_split (core pads : List Char) (hcne : core ≠ [])
    (hcore : ∀ c ∈ core, isB64Char c = true) (hpads : ∀ c ∈ pads, c = '=') :
    b64FormatOk (core ++ pads) = true := by
  unfold b64FormatOk
  rw [List.takeWhile_append_of_pos hcore]
  have htw : pads.takeWhile isB64Char = [] := by
    cases pads with
    | nil => rfl
    | cons p ps =>
      have : p = '=' := hpads p (by simp)
      subst this
      rw [List.takeWhile_cons_of_neg (by decide)]
  rw [htw, List.append_nil, Bool.and_eq_true]
  refine ⟨by cases core with | nil => exact absurd rfl hcne | cons c cs => rfl,
    ?_⟩
  rw [List.drop_left' rfl, List.all_eq_true]
  intro c hc
  simpa using hpads c hc

theorem b64FormatOk_b64Encode (B : List Nat) (hne : B ≠ []) :
    b64FormatOk (b64Encode B) = true := by
  obtain ⟨core, pads, heq, hcne, hcore, hpads⟩ := b64Encode_split B hne
  rw [heq]
  exact b64FormatOk_of_split core pads hcne hcore hpads

theorem isB64Char_not_ws (c : Char) (h : isB64Char c = true) :
    isJsWs c = false := by
  by_contra hne
  have hws : isJsWs c = true := by
    cases hcc : isJsWs c with
    | false => exact absurd hcc hne
    | true => rfl
  have hcs : ((((c = ' ' ∨ c = '\t') ∨ c = '\n') ∨ c = '\r') ∨ c = '\x0b') ∨
      c = '\x0c' := by
    simpa [isJsWs] using hws
  rcases hcs with ((((rfl | rfl) | rfl) | rfl) | rfl) | rfl <;>
    simp [isB64Char] at h

/-- Cleaning leaves an already-clean base64 text untouched. -/
theorem cleanB64_of_b64 (s : List Char)
    (h : ∀ c ∈ s, isB64Char c = true ∨ c = '=') : cleanB64 s = s := by
  have hws : ∀ c ∈ s, isJsWs c = false := by
    intro c hc
    rcases h c hc with h1 | h1
    · exact isB64Char_not_ws c h1
    · subst h1; rfl
  have hdw : ∀ (l : List Char), (∀ c ∈ l, isJsWs c = false) →
      l.dropWhile isJsWs = l := by
    intro l hl
    cases l with
    | nil => rfl
    | cons a rest => exact List.dropWhile_cons_of_neg (by simp [hl a (by simp)])
  unfold cleanB64 trimJs
  rw [hdw s hws, hdw s.reverse (fun c hc => hws c (List.mem_reverse.mp hc)),
    List.reverse_reverse]
  rw [List.filter_eq_self]
  intro c hc
  have hcw := hws c hc
  simp only [isJsWs, Bool.or_eq_false_iff, decide_eq_false_iff_not] at hcw
  simp [hcw.1.1.2, hcw.1.1.1.2, hcw.1.1.1.1.2]

/- ------------------------------------------------------------------ -/
/- A standards-compliant MIME reader (modelled from the spec).        -/
/- ------------------------------------------------------------------ -/

/-- The part delimiter line `--<boundary>`. -/
def delimOf (b : List Char) : List Char := ['-', '-'] ++ b

/-- The closing delimiter line `--<boundary>--`. -/
def closeOf (b : List Char) : List Char := ['-', '-'] ++ b ++ ['-', '-']

/-- Modelled from the spec: group a message's lines at each delimiter
    line (the groups are the preamble and the successive body parts). -/
def splitGroups (delim : List Char) : List (List Char) → List (List (List Char))
  | [] => [[]]
  | l :: rest =>
    if l = delim then [] :: splitGroups delim rest
    else (l :: (splitGroups delim rest).headD []) :: (splitGroups delim rest).tail

theorem splitGroups_ne_nil (delim : List Char) (ls : List (List Char)) :
    splitGroups delim ls ≠ [] := by
  induction ls with
  | nil => simp [splitGroups]
  | cons l rest ih =>
    by_cases h : l = delim <;> simp [splitGroups, h]

theorem splitGroups_single (delim : List Char) (xs : List (List Char))
    (h : delim ∉ xs) : splitGroups delim xs = [xs] := by
  induction xs with
  | nil => rfl
  | cons x rest ih =>
    have hx : x ≠ delim := fun he => h (he ▸ List.mem_cons_self x rest)
    rw [splitGroups, if_neg hx, ih (fun hm => h (List.mem_cons_of_mem _ hm))]
    rfl

theorem splitGroups_append (delim : List Char) (xs ys : List (List Char))
    (h : delim ∉ xs) :
    splitGroups delim (xs ++ delim :: ys) = xs :: splitGroups delim ys := by
  induction xs with
  | nil => simp [splitGroups]
  | cons x rest ih =>
    have hx : x ≠ delim := fun he => h (he ▸ List.mem_cons_self x rest)
    rw [List.cons_append, splitGroups, if_neg hx,
      ih (fun hm => h (List.mem_cons_of_mem _ hm))]
    rfl

/-- Modelled from the spec: a standards-compliant MIME reader's extraction
    of the attachment part's transfer-encoded text — split the message into
    lines, group them at the `--boundary` delimiter lines, take the second
    body part, skip its header block (up to the first blank line), stop at
    the closing delimiter, discard blank lines and undo the line wrap. -/
def extractAttachmentB64 (boundary msg : List Char) : List Char :=
  let part2 :=
    ((splitGroups (delimOf boundary) (splitCRLF msg)).drop 2).headD []
  ((((part2.dropWhile (· ≠ ([] : List Char))).drop 1).takeWhile
    (· ≠ closeOf boundary)).filter (· ≠ ([] : List Char))).flatten

/-- Modelled from the spec: extracting and decoding the attachment. -/
def extractAttachment (boundary msg : List Char) : List Nat :=
  b64Decode (extractAttachmentB64 boundary msg)

/- ------------------------------------------------------------------ -/
/- Flattening the built message into its wire lines.                  -/
/- ------------------------------------------------------------------ -/

theorem joinCRLF_append_parts (xs ys : List (List Char)) (hx : xs ≠ [])
    (hy : ys ≠ []) :
    joinCRLF (xs ++ ys) = joinCRLF xs ++ '\r' :: '\n' :: joinCRLF ys := by
  induction xs with
  | nil => exact absurd rfl hx
  | cons x rest ih =>
    cases rest with
    | nil =>
      cases ys with
      | nil => exact absurd rfl hy
      | cons y ys' => rfl
    | cons x2 rest2 =>
      rw [List.cons_append, List.cons_append, joinCRLF_cons_cons]
      rw [show x2 :: (rest2 ++ ys) = (x2 :: rest2) ++ ys from rfl]
      rw [ih (by simp), joinCRLF_cons_cons]
      simp [List.append_assoc]

theorem joinCRLF_head_glue (ys zs : List (List Char)) (hys : ys ≠ [])
    (hzs : zs ≠ []) :
    joinCRLF (joinCRLF ys :: zs) = joinCRLF (ys ++ zs) := by
  cases zs with
  | nil => exact absurd rfl hzs
  | cons z zs' =>
    rw [joinCRLF_cons_cons, joinCRLF_append_parts ys (z :: zs') hys (by simp)]

theorem joinCRLF_congr_tail (xs : List (List Char)) (as bs : List (List Char))
    (h : joinCRLF as = joinCRLF bs) (ha : as ≠ []) (hb : bs ≠ []) :
    joinCRLF (xs ++ as) = joinCRLF (xs ++ bs) := by
  induction xs with
  | nil => exact h
  | cons x rest ih =>
    cases hra : rest ++ as with
    | nil =>
      rcases List.append_eq_nil.mp hra with ⟨_, h2⟩
      exact absurd h2 ha
    | cons m ms =>
      cases hrb : rest ++ bs with
      | nil =>
        rcases List.append_eq_nil.mp hrb with ⟨_, h2⟩
        exact absurd h2 hb
      | cons m2 ms2 =>
        rw [List.cons_append, List.cons_append, hra, hrb, joinCRLF_cons_cons,
          joinCRLF_cons_cons, ← hra, ← hrb, ih]

/-- The header block and preamble of the built message (entries 1-11 of
    the source's line array). -/
def hdrLines (b msgId date : List Char) (d : MailData) : List (List Char) :=
  [ "Message-ID: ".toList ++ msgId,
    "Date: ".toList ++ date,
    "From: ".toList ++ d.fromAddr,
    "To: ".toList ++ d.toAddr,
    "Subject: ".toList ++ d.subject,
    "MIME-Version: 1.0".toList,
    "Content-Type: multipart/mixed; boundary=\"".toList ++ b ++ ['"'],
    "X-Mailer: Metascholar Certificate System".toList,
    [],
    "This is a multi-part message in MIME format.".toList,
    [] ]

/-- The header lines of the HTML part. -/
def htmlHdrLines : List (List Char) :=
  [ "Content-Type: text/html; charset=utf-8".toList,
    "Content-Transfer-Encoding: quoted-printable".toList,
    [] ]

/-- The header lines of the attachment part. -/
def pdfHdrLines (cid : List Char) (d : MailData) : List (List Char) :=
  [ "Content-Type: application/pdf; name=\"".toList ++ d.filename ++ ['"'],
    "Content-Disposition: attachment; filename=\"".toList ++ d.filename ++ ['"'],
    "Content-Transfer-Encoding: base64".toList,
    "Content-ID: <certificate_".toList ++ cid ++ ['>'],
    [] ]

/-- The closing lines of the built message. -/
def tailLines (b : List Char) : List (List Char) := [[], closeOf b, []]

theorem mimeLines_decomp (b m dt cid : List Char) (d : MailData) :
    mimeLines b m dt cid d =
      hdrLines b m dt d ++ delimOf b :: (htmlHdrLines ++
        (encodeQP d.html :: ([] :: delimOf b :: (pdfHdrLines cid d ++
          (joinCRLF (chunks76 (cleanB64 d.pdfBase64)) :: tailLines b))))) := rfl

/-- The built message, with the two composite entries (the
    quoted-printable body and the wrapped base64 body) flattened into
    their individual wire lines. -/
def mimeFlatLines (b m dt cid : List Char) (d : MailData) : List (List Char) :=
  hdrLines b m dt d ++ delimOf b :: (htmlHdrLines ++
    (splitCRLF (encodeQP d.html) ++ ([] :: delimOf b :: (pdfHdrLines cid d ++
      (chunks76 (cleanB64 d.pdfBase64) ++ tailLines b)))))

theorem joinCRLF_mime_flat (b m dt cid : List Char) (d : MailData)
    (hcb : cleanB64 d.pdfBase64 ≠ []) :
    joinCRLF (mimeLines b m dt cid d) =
      joinCRLF (mimeFlatLines b m dt cid d) := by
  rw [mimeLines_decomp]
  unfold mimeFlatLines
  have step1 : joinCRLF (([] : List Char) :: delimOf b :: (pdfHdrLines cid d ++
      (joinCRLF (chunks76 (cleanB64 d.pdfBase64)) :: tailLines b))) =
      joinCRLF (([] : List Char) :: delimOf b :: (pdfHdrLines cid d ++
        (chunks76 (cleanB64 d.pdfBase64) ++ tailLines b))) := by
    show joinCRLF ((([] : List Char) :: delimOf b :: pdfHdrLines cid d) ++
        (joinCRLF (chunks76 (cleanB64 d.pdfBase64)) :: tailLines b)) =
      joinCRLF ((([] : List Char) :: delimOf b :: pdfHdrLines cid d) ++
        (chunks76 (cleanB64 d.pdfBase64) ++ tailLines b))
    exact joinCRLF_congr_tail _ _ _
      (joinCRLF_head_glue _ _ (chunks76_nonempty _ hcb) (by simp [tailLines]))
      (by simp)
      (fun hx => chunks76_nonempty _ hcb (List.append_eq_nil.mp hx).1)
  show joinCRLF ((hdrLines b m dt d ++ delimOf b :: htmlHdrLines) ++
      (encodeQP d.html :: ([] :: delimOf b :: (pdfHdrLines cid d ++
        (joinCRLF (chunks76 (cleanB64 d.pdfBase64)) :: tailLines b))))) =
    joinCRLF ((hdrLines b m dt d ++ delimOf b :: htmlHdrLines) ++
      (splitCRLF (encodeQP d.html) ++ ([] :: delimOf b :: (pdfHdrLines cid d ++
        (chunks76 (cleanB64 d.pdfBase64) ++ tailLines b)))))
  apply joinCRLF_congr_tail
  · conv_lhs => rw [← joinCRLF_splitCRLF (encodeQP d.html)]
    rw [joinCRLF_head_glue _ _ (splitCRLF_ne_nil _) (by simp)]
    exact joinCRLF_congr_tail _ _ _ step1 (by simp) (by simp)
  · simp
  · exact fun hx => splitCRLF_ne_nil _ (List.append_eq_nil.mp hx).1

/- ------------------------------------------------------------------ -/
/- Line-level facts feeding the round-trip proof.                     -/
/- ------------------------------------------------------------------ -/

theorem ne_of_heads (c1 c2 : Char) (t1 t2 l1 l2 : List Char)
    (h1 : l1 = c1 :: t1) (h2 : l2 = c2 :: t2) (hne : c1 ≠ c2) : l1 ≠ l2 := by
  subst h1; subst h2
  intro he
  injection he with a _
  exact hne a

theorem closeOf_ne_delimOf (b : List Char) : closeOf b ≠ delimOf b := by
  intro h
  have hlen := congrArg List.length h
  simp [closeOf, delimOf] at hlen

theorem chunk_ne_dash_headed (s l t : List Char) (hl : l ∈ chunks76 s)
    (hs : ∀ c ∈ s, isB64Char c = true ∨ c = '=') : l ≠ '-' :: t := by
  intro he
  have hd : '-' ∈ l := by rw [he]; simp
  rcases hs '-' (chunks76_mem_chars s l hl '-' hd) with h | h
  · exact absurd h (by decide)
  · exact absurd h (by decide)

theorem qp_line_ne_delim (suffix html l : List Char)
    (hl : l ∈ splitCRLF (encodeQP html)) : l ≠ delimOf (npHead ++ suffix) := by
  intro he
  have hok := encodeQP_lines html l hl
  have hbad : qpLineOk (delimOf (npHead ++ suffix)) = false := by
    show qpLineOk ('-' :: '-' :: (npHead ++ suffix)) = false
    rw [qpLineOk_cons_ne _ _ (by decide), qpLineOk_cons_ne _ _ (by decide)]
    exact qpLineOk_npHead suffix
  rw [he, hbad] at hok
  exact absurd hok (by decide)

theorem no_cr_append2 (xs ys : List Char) (hx : '\r' ∉ xs) (hy : '\r' ∉ ys) :
    '\r' ∉ xs ++ ys := by
  intro h
  rcases List.mem_append.mp h with h | h
  exacts [hx h, hy h]

theorem delim_not_mem_hdr (b m dt : List Char) (d : MailData) :
    delimOf b ∉ hdrLines b m dt d := by
  intro h
  simp only [hdrLines, List.mem_cons, List.not_mem_nil, or_false] at h
  rcases h with h | h | h | h | h | h | h | h | h | h | h
  · exact ne_of_heads '-' 'M' _ _ _ _ rfl rfl (by decide) h
  · exact ne_of_heads '-' 'D' _ _ _ _ rfl rfl (by decide) h
  · exact ne_of_heads '-' 'F' _ _ _ _ rfl rfl (by decide) h
  · exact ne_of_heads '-' 'T' _ _ _ _ rfl rfl (by decide) h
  · exact ne_of_heads '-' 'S' _ _ _ _ rfl rfl (by decide) h
  · exact ne_of_heads '-' 'M' _ _ _ _ rfl rfl (by decide) h
  · exact ne_of_heads '-' 'C' _ _ _ _ rfl rfl (by decide) h
  · exact ne_of_heads '-' 'X' _ _ _ _ rfl rfl (by decide) h
  · simp [delimOf] at h
  · exact ne_of_heads '-' 'T' _ _ _ _ rfl rfl (by decide) h
  · simp [delimOf] at h

theorem delim_not_mem_part1 (suffix html : List Char) :
    delimOf (npHead ++ suffix) ∉
      htmlHdrLines ++ splitCRLF (encodeQP html) ++ [([] : List Char)] := by
  intro h
  rcases List.mem_append.mp h with h | h
  · rcases List.mem_append.mp h with h | h
    · simp only [htmlHdrLines, List.mem_cons, List.not_mem_nil, or_false] at h
      rcases h with h | h | h
      · exact ne_of_heads '-' 'C' _ _ _ _ rfl rfl (by decide) h
      · exact ne_of_heads '-' 'C' _ _ _ _ rfl rfl (by decide) h
      · simp [delimOf] at h
    · exact qp_line_ne_delim suffix html _ h rfl
  · simp only [List.mem_cons, List.not_mem_nil, or_false] at h
    simp [delimOf] at h

theorem delim_not_mem_part2 (suffix cid : List Char) (d : MailData)
    (hchars : ∀ c ∈ cleanB64 d.pdfBase64, isB64Char c = true ∨ c = '=') :
    delimOf (npHead ++ suffix) ∉
      pdfHdrLines cid d ++ (chunks76 (cleanB64 d.pdfBase64) ++
        tailLines (npHead ++ suffix)) := by
  intro h
  rcases List.mem_append.mp h with h | h
  · simp only [pdfHdrLines, List.mem_cons, List.not_mem_nil, or_false] at h
    rcases h with h | h | h | h | h
    · exact ne_of_heads '-' 'C' _ _ _ _ rfl rfl (by decide) h
    · exact ne_of_heads '-' 'C' _ _ _ _ rfl rfl (by decide) h
    · exact ne_of_heads '-' 'C' _ _ _ _ rfl rfl (by decide) h
    · exact ne_of_heads '-' 'C' _ _ _ _ rfl rfl (by decide) h
    · simp [delimOf] at h
  · rcases List.mem_append.mp h with h | h
    · exact chunk_ne_dash_headed _ _ _ h hchars rfl
    · simp only [tailLines, List.mem_cons, List.not_mem_nil, or_false] at h
      rcases h with h | h | h
      · simp [delimOf] at h
      · exact closeOf_ne_delimOf _ h.symm
      · simp [delimOf] at h

theorem groups_eval (suffix m dt cid : List Char) (d : MailData)
    (hchars : ∀ c ∈ cleanB64 d.pdfBase64, isB64Char c = true ∨ c = '=') :
    splitGroups (delimOf (npHead ++ suffix))
        (mimeFlatLines (npHead ++ suffix) m dt cid d) =
      [hdrLines (npHead ++ suffix) m dt d,
        htmlHdrLines ++ splitCRLF (encodeQP d.html) ++ [([] : List Char)],
        pdfHdrLines cid d ++ (chunks76 (cleanB64 d.pdfBase64) ++
          tailLines (npHead ++ suffix))] := by
  have hsplit : mimeFlatLines (npHead ++ suffix) m dt cid d =
      hdrLines (npHead ++ suffix) m dt d ++ delimOf (npHead ++ suffix) ::
        ((htmlHdrLines ++ splitCRLF (encodeQP d.html) ++ [([] : List Char)]) ++
          delimOf (npHead ++ suffix) :: (pdfHdrLines cid d ++
            (chunks76 (cleanB64 d.pdfBase64) ++
              tailLines (npHead ++ suffix)))) := by
    simp [mimeFlatLines, List.append_assoc]
  rw [hsplit, splitGroups_append _ _ _ (delim_not_mem_hdr _ m dt d),
    splitGroups_append _ _ _ (delim_not_mem_part1 suffix d.html),
    splitGroups_single _ _ (delim_not_mem_part2 suffix cid d hchars)]

theorem flat_no_crlf (suffix m dt cid : List Char) (d : MailData)
    (hm : '\r' ∉ m) (hdt : '\r' ∉ dt) (hcid : '\r' ∉ cid)
    (hsuf : '\r' ∉ suffix) (hfr : '\r' ∉ d.fromAddr) (hto : '\r' ∉ d.toAddr)
    (hsub : '\r' ∉ d.subject) (hfn : '\r' ∉ d.filename) :
    ∀ l ∈ mimeFlatLines (npHead ++ suffix) m dt cid d, hasCRLF l = false := by
  have hb : '\r' ∉ npHead ++ suffix := no_cr_append2 _ _ (by decide) hsuf
  have hdelim : hasCRLF (delimOf (npHead ++ suffix)) = false :=
    hasCRLF_of_no_cr _
      (show '\r' ∉ ['-', '-'] ++ (npHead ++ suffix) from
        no_cr_append2 _ _ (by decide) hb)
  intro l hl
  simp only [mimeFlatLines, List.mem_append, List.mem_cons] at hl
  rcases hl with h | h | h
  · -- header block
    simp only [hdrLines, List.mem_cons, List.not_mem_nil, or_false] at h
    rcases h with rfl | rfl | rfl | rfl | rfl | rfl | rfl | rfl | rfl | rfl | rfl
    · exact hasCRLF_of_no_cr _ (no_cr_append2 _ _ (by decide) hm)
    · exact hasCRLF_of_no_cr _ (no_cr_append2 _ _ (by decide) hdt)
    · exact hasCRLF_of_no_cr _ (no_cr_append2 _ _ (by decide) hfr)
    · exact hasCRLF_of_no_cr _ (no_cr_append2 _ _ (by decide) hto)
    · exact hasCRLF_of_no_cr _ (no_cr_append2 _ _ (by decide) hsub)
    · exact hasCRLF_of_no_cr _ (by decide)
    · exact hasCRLF_of_no_cr _ (no_cr_append2 _ _
        (no_cr_append2 _ _ (by decide) hb) (by decide))
    · exact hasCRLF_of_no_cr _ (by decide)
    · rfl
    · exact hasCRLF_of_no_cr _ (by decide)
    · rfl
  · exact h ▸ hdelim
  · rcases h with h | h
    · -- html part headers
      simp only [htmlHdrLines, List.mem_cons, List.not_mem_nil, or_false] at h
      rcases h with rfl | rfl | rfl
      · exact hasCRLF_of_no_cr _ (by decide)
      · exact hasCRLF_of_no_cr _ (by decide)
      · rfl
    · rcases h with h | h
      · -- quoted-printable lines
        exact splitCRLF_no_crlf _ l h
      · rcases h with rfl | h
        · rfl
        · rcases h with rfl | h
          · exact hdelim
          · rcases h with h | h
            · -- attachment part headers
              simp only [pdfHdrLines, List.mem_cons, List.not_mem_nil,
                or_false] at h
              rcases h with rfl | rfl | rfl | rfl | rfl
              · exact hasCRLF_of_no_cr _ (no_cr_append2 _ _
                  (no_cr_append2 _ _ (by decide) hfn) (by decide))
              · exact hasCRLF_of_no_cr _ (no_cr_append2 _ _
                  (no_cr_append2 _ _ (by decide) hfn) (by decide))
              · exact hasCRLF_of_no_cr _ (by decide)
              · exact hasCRLF_of_no_cr _ (no_cr_append2 _ _
                  (no_cr_append2 _ _ (by decide) hcid) (by decide))
              · rfl
            · rcases h with h | h
              · -- wrapped base64 lines: no carriage returns at all
                apply hasCRLF_of_no_cr
                intro hcr
                exact cleanB64_no_cr d.pdfBase64
                  (chunks76_mem_chars _ l h '\r' hcr)
              · -- closing lines
                simp only [tailLines, List.mem_cons, List.not_mem_nil,
                  or_false] at h
                rcases h with rfl | rfl | rfl
                · rfl
                · exact hasCRLF_of_no_cr _
                    (show '\r' ∉ (['-', '-'] ++ (npHead ++ suffix)) ++
                        ['-', '-'] from
                      no_cr_append2 _ _ (no_cr_append2 _ _ (by decide) hb)
                        (by decide))
                · rfl

theorem b64Encode_ne_nil (B : List Nat) (h : B ≠ []) : b64Encode B ≠ [] := by
  obtain ⟨core, pads, heq, hcne, -, -⟩ := b64Encode_split B h
  rw [heq]
  intro hc
  exact hcne (List.append_eq_nil.mp hc).1

/-- Evaluating the reader's take/filter pipeline over the attachment body
    followed by the closing lines: the body's lines survive intact. -/
theorem take_filter_chunks (close : List Char) (chunks : List (List Char))
    (hno : ∀ l ∈ chunks, l ≠ close) (hne : ∀ l ∈ chunks, l ≠ [])
    (hcl : close ≠ []) :
    ((chunks ++ ([] : List Char) :: close :: [([] : List Char)]).takeWhile
        (· ≠ close)).filter (· ≠ ([] : List Char)) = chunks := by
  induction chunks with
  | nil =>
    have h0 : ([] : List Char) ≠ close := fun h => hcl h.symm
    simp [List.takeWhile_cons, h0]
  | cons c cs ih =>
    have hc1 : c ≠ close := hno c (List.mem_cons_self c cs)
    have hc2 : c ≠ ([] : List Char) := hne c (List.mem_cons_self c cs)
    have ih2 := ih (fun l hl => hno l (List.mem_cons_of_mem _ hl))
      (fun l hl => hne l (List.mem_cons_of_mem _ hl))
    simp only [ne_eq, decide_not] at ih2
    simp [List.takeWhile_cons, List.filter_cons, hc1, hc2, ih2]

/-- Evaluating the reader's full extraction pipeline on the third group of
    the built message: it returns exactly the cleaned base64 text. -/
theorem extract_pipeline (b cid : List Char) (d : MailData)
    (hchars : ∀ c ∈ cleanB64 d.pdfBase64, isB64Char c = true ∨ c = '=') :
    (((((pdfHdrLines cid d ++ (chunks76 (cleanB64 d.pdfBase64) ++
            tailLines b)).dropWhile (· ≠ ([] : List Char))).drop 1).takeWhile
        (· ≠ closeOf b)).filter (· ≠ ([] : List Char))).flatten =
      cleanB64 d.pdfBase64 := by
  have hdw : (pdfHdrLines cid d ++ (chunks76 (cleanB64 d.pdfBase64) ++
      tailLines b)).dropWhile (· ≠ ([] : List Char)) =
      ([] : List Char) :: (chunks76 (cleanB64 d.pdfBase64) ++ tailLines b) := by
    simp only [pdfHdrLines, List.cons_append, List.nil_append]
    simp [List.dropWhile_cons]
  rw [hdw]
  have hdrop : (([] : List Char) ::
      (chunks76 (cleanB64 d.pdfBase64) ++ tailLines b)).drop 1 =
      chunks76 (cleanB64 d.pdfBase64) ++ tailLines b := rfl
  rw [hdrop]
  have htail : chunks76 (cleanB64 d.pdfBase64) ++ tailLines b =
      chunks76 (cleanB64 d.pdfBase64) ++
        ([] : List Char) :: closeOf b :: [([] : List Char)] := rfl
  rw [htail,
    take_filter_chunks (closeOf b) _
      (fun l hl => chunk_ne_dash_headed _ l ('-' :: (b ++ ['-', '-'])) hl hchars)
      (chunksGo_ne_nil _ _) (by simp [closeOf]),
    chunks76_flat]

/-- C1: for every nonempty byte sequence B (each byte < 256), building the
    MIME message whose attachment field is the base64 encoding of B — with a
    boundary of the generated `----=NextPart_*` shape and CR-free header
    parameters — succeeds, and the standards-compliant reader model applied
    to the built message recovers exactly B from the attachment part,
    byte-for-byte. -/
theorem claim1_round_trip (B : List Nat) (suffix m dt cid : List Char)
    (d : MailData) (hBne : B ≠ []) (hB : ∀ x ∈ B, x < 256)
    (hpdf : d.pdfBase64 = b64Encode B)
    (hm : '\r' ∉ m) (hdt : '\r' ∉ dt) (hcid : '\r' ∉ cid) (hsuf : '\r' ∉ suffix)
    (hfr : '\r' ∉ d.fromAddr) (hto : '\r' ∉ d.toAddr) (hsub : '\r' ∉ d.subject)
    (hfn : '\r' ∉ d.filename) :
    ∃ msg,
      buildMimeMessage (npHead ++ suffix) m dt cid d = some msg ∧
        extractAttachment (npHead ++ suffix) msg = B := by
  have hclean : cleanB64 d.pdfBase64 = b64Encode B := by
    rw [hpdf]; exact cleanB64_of_b64 _ (b64Encode_chars B)
  have hchars : ∀ c ∈ cleanB64 d.pdfBase64, isB64Char c = true ∨ c = '=' := by
    rw [hclean]; exact b64Encode_chars B
  have hcbne : cleanB64 d.pdfBase64 ≠ [] := by
    rw [hclean]; exact b64Encode_ne_nil B hBne
  have hfmt : b64FormatOk (cleanB64 d.pdfBase64) = true := by
    rw [hclean]; exact b64FormatOk_b64Encode B hBne
  refine ⟨joinCRLF (mimeLines (npHead ++ suffix) m dt cid d),
    by simp [buildMimeMessage, hfmt], ?_⟩
  have hflat : splitCRLF (joinCRLF (mimeLines (npHead ++ suffix) m dt cid d)) =
      mimeFlatLines (npHead ++ suffix) m dt cid d := by
    rw [joinCRLF_mime_flat _ _ _ _ _ hcbne]
    exact splitCRLF_joinCRLF _ (by simp [mimeFlatLines, hdrLines])
      (flat_no_crlf suffix m dt cid d hm hdt hcid hsuf hfr hto hsub hfn)
  simp only [extractAttachment, extractAttachmentB64]
  rw [hflat, groups_eval suffix m dt cid d hchars]
  show b64Decode
      (((((pdfHdrLines cid d ++ (chunks76 (cleanB64 d.pdfBase64) ++
              tailLines (npHead ++ suffix))).dropWhile
          (· ≠ ([] : List Char))).drop 1).takeWhile
        (· ≠ closeOf (npHead ++ suffix))).filter
          (· ≠ ([] : List Char))).flatten = B
  rw [extract_pipeline _ cid d hchars, hclean, b64Decode_b64Encode B hB]

theorem claim1_round_trip_witness :
    ∃ msg,
      buildMimeMessage (npHead ++ "173.456".toList) "mid1".toList
          "date1".toList "cid1".toList
          ⟨"a@b.c".toList, "d@e.f".toList, "Subj".toList, "<p>Hi</p>".toList,
            b64Encode [1, 2, 3], "cert.pdf".toList⟩ = some msg ∧
        extractAttachment (npHead ++ "173.456".toList) msg = [1, 2, 3] :=
  claim1_round_trip [1, 2, 3] "173.456".toList "mid1".toList "date1".toList
    "cid1".toList
    ⟨"a@b.c".toList, "d@e.f".toList, "Subj".toList, "<p>Hi</p>".toList,
      b64Encode [1, 2, 3], "cert.pdf".toList⟩
    (by decide) (by decide) rfl (by decide) (by decide) (by decide) (by decide)
    (by decide) (by decide) (by decide) (by decide)

end CertMail
